import Mathlib

/-!
Verification development for `ford-sync-convert` (`src/main.rs`), a converter
for m3u playlists into a Ford Sync 2 compatible format.

The program is embedded shallowly:

* An OS string (one path component) is a list of characters together with a
  flag recording whether it is valid UTF-8 (`OsStr`).  Byte-level placement of
  invalid UTF-8 inside a component is abstracted by this single flag.
* A path is its list of components, as produced by Rust's `Path::iter` after
  normalization (`OsPath`).  Root and prefix components do not occur in the
  playlist entries the program manipulates, so `Path::join` is component-list
  append.
* All I/O outcomes (directory creation, file open/create/write, `ffmpeg`
  process results, `fs::copy` results) are supplied by an environment of
  oracles, and the `.unwrap()` / `.expect()` panics of `main` are modelled as
  `Except.error` values of the whole run.
* The nondeterministic completion order of the 4-worker conversion pool is an
  explicit environment parameter `completion`: the list of convert-task
  indices in the order their results arrive on the mpsc channel.
-/

namespace FordSync

/-- One path component: an OS string, abstracted as its characters plus a flag
saying whether the bytes are valid UTF-8. -/
structure OsStr where
  chars : List Char
  utf8 : Bool
deriving DecidableEq, Repr

/-- A valid-UTF-8 component made from a Lean string. -/
def OsStr.ofString (s : String) : OsStr := ⟨s.data, true⟩

/-- `OsStr::to_str` — `some` exactly when the component is valid UTF-8
(`Path::iter` item passed to `to_str().unwrap()` in the Windows-path fold). -/
def OsStr.toStr (c : OsStr) : Option String :=
  if c.utf8 then some (String.mk c.chars) else none

/-- A path, as its (normal) components in order. -/
abbrev OsPath := List OsStr

/-- Split a file name at its last `.`: `some (stem, ext)` when a dot exists.
Mirrors the search in Rust's `split_file_at_dot` (the `..` special case is
handled by the callers). -/
def splitLastDot : List Char → Option (List Char × List Char)
  | [] => none
  | c :: cs =>
    match splitLastDot cs with
    | some (st, ex) => some (c :: st, ex)
    | none => if c = '.' then some ([], cs) else none

/-- Rust `Path::extension` restricted to a file name: the part after the last
dot, provided that dot is not the leading character, and the name is
not `..`. -/
def rustExtension (f : List Char) : Option (List Char) :=
  if f = ['.', '.'] then none
  else
    match splitLastDot f with
    | none => none
    | some ([], _) => none
    | some (_ :: _, ex) => some ex

/-- `Path::extension` of a path: the extension of its last component
(`input_audio_path.extension()` in `main`). -/
def pathExtension (p : OsPath) : Option (List Char) :=
  match p.getLast? with
  | none => none
  | some c => rustExtension c.chars

/-- Rust `Path::file_stem` on a file name: the part before the last counted
dot, or the whole name when there is no such dot. -/
def fileStemChars (f : List Char) : List Char :=
  match splitLastDot f with
  | some ([], _) => f
  | some (st, _) => st
  | none => f

/-- Replace the extension of a file-name component by `mp3`
(the component-level effect of `Path::with_extension("mp3")`).  The UTF-8
validity of the stem is abstracted as the validity of the whole component. -/
def setExtMp3 (c : OsStr) : OsStr :=
  ⟨fileStemChars c.chars ++ ('.' :: ['m', 'p', '3']), c.utf8⟩

/-- `input_audio_path.with_extension("mp3")`: rewrite the last component; a
path whose last component is `..` has no file name and is left unchanged. -/
def withExtensionMp3 : OsPath → OsPath
  | [] => []
  | [c] => if c.chars = ['.', '.'] then [c] else [setExtMp3 c]
  | c :: c' :: cs => c :: withExtensionMp3 (c' :: cs)

/-- The characters of `"mp3"`, the extension compared against in `main`. -/
def mp3Chars : List Char := ['m', 'p', '3']

/-- Kind of a classified task. -/
inductive TaskKind
  | copy
  | convert
deriving DecidableEq, Repr

/-- A classified playlist entry: the task kind, the resolved input path
(`input_playlist_dir.join(&input_audio_path)`), the output path under the
output root, and `relOut`, the output-root-relative path whose Windows form is
written to the output playlist (`output_audio_path` in `main`). -/
structure Classified where
  kind : TaskKind
  input : OsPath
  output : OsPath
  relOut : OsPath
deriving DecidableEq, Repr

/-- The per-entry classification in `main`'s playlist loop: entries without an
extension yield `none`; extension exactly `mp3` (case-sensitive) yields a copy
task with the unchanged entry path; any other extension yields a convert task
with the extension rewritten to `mp3`. -/
def classifyEntry (playlistDir outputDir p : OsPath) : Option Classified :=
  match pathExtension p with
  | none => none
  | some ext =>
    if ext = mp3Chars then
      some ⟨.copy, playlistDir ++ p, outputDir ++ p, p⟩
    else
      let newAudioPath := withExtensionMp3 p
      some ⟨.convert, playlistDir ++ p, outputDir ++ newAudioPath, newAudioPath⟩

/-- The fold building the Windows path string: every component is converted
with `to_str().unwrap()` (`none` models the panic) and suffixed with `\`. -/
def windowsFold : OsPath → Option (List Char)
  | [] => some []
  | c :: cs =>
    match c.utf8, windowsFold cs with
    | true, some rest => some (c.chars ++ '\\' :: rest)
    | _, _ => none

/-- The line written to the output playlist for a surviving entry: the fold
above followed by `truncate(len - 1)`, which drops the trailing `\`. -/
def windowsLine (p : OsPath) : Option String :=
  (windowsFold p).map fun l => String.mk l.dropLast

/-- `input_playlist_path.parent()`, with the normalization in `main`: an empty
parent becomes `.`. -/
def playlistDir (playlistPath : OsPath) : OsPath :=
  let parent := playlistPath.dropLast
  if parent = [] then [OsStr.ofString "."] else parent

/-- `Path::file_name`: the last component, except that Rust returns `None`
when the path is empty or terminates in `..` or `.`
(`input_playlist_path.file_name()` in `main`, whose `unwrap` panics then). -/
def fileName? (p : OsPath) : Option OsStr :=
  match p.getLast? with
  | none => none
  | some c => if c.chars = ['.', '.'] ∨ c.chars = ['.'] then none else some c

/-- One item yielded by the m3u reader's `entries()` iterator: a read error
(logged and skipped), a URL entry, or a local path entry. -/
inductive EntryRes
  | readErr (msg : String)
  | url (u : String)
  | path (p : OsPath)
deriving DecidableEq, Repr

/-- One input playlist together with the outcomes of the I/O the program
performs on it: whether `m3u::Reader::open` succeeds, whether
`File::create` of the output playlist succeeds, and whether writes/flush to
the output playlist succeed. -/
structure PlaylistFile where
  path : OsPath
  openOk : Bool
  createOk : Bool
  writeOk : Bool
  entries : List EntryRes
deriving DecidableEq, Repr

/-- The unrecoverable terminations of `main` (each an `unwrap`/`expect`
panic site). -/
inductive Fatal
  | createRootDir
  | openPlaylist (path : OsPath)
  | noFileName (path : OsPath)
  | createOutputFile (path : OsPath)
  | writeOutputFile (path : OsPath)
  | panicNonUtf8
  | createTaskDir (dir : OsPath)
deriving DecidableEq, Repr

/-- Observable events of a run, in program order. `line`/`flushed` are writes
to an output playlist; `warnUrl`/`warnNoExt`/`warnReadErr` are the per-entry
skip warnings; `convertDone`/`copyDone` are the per-task progress log lines,
carrying the 1-based display index, the total task count, the task's output
path and whether the task succeeded. -/
inductive Event
  | line (outPlaylist : OsPath) (s : String)
  | flushed (outPlaylist : OsPath)
  | warnUrl (u : String)
  | warnNoExt (p : OsPath)
  | warnReadErr (msg : String)
  | convertDone (index total : Nat) (output : OsPath) (ok : Bool)
  | copyDone (index total : Nat) (output : OsPath) (ok : Bool)
deriving DecidableEq, Repr

/-- Log severity. -/
inductive Level
  | info
  | warn
deriving DecidableEq, Repr

/-- Severity of the log line belonging to an event: skip warnings and failed
tasks are warnings, everything else is info. -/
def Event.level : Event → Level
  | .warnUrl _ => .warn
  | .warnNoExt _ => .warn
  | .warnReadErr _ => .warn
  | .convertDone _ _ _ ok => if ok then .info else .warn
  | .copyDone _ _ _ ok => if ok then .info else .warn
  | _ => .info

/-- Accumulated output of the playlist-parsing stage: the two global work
lists (`files_to_copy`, `files_to_convert`, each entry an
input-path/output-path pair), the lines written to the current output
playlist, and the events, all in encounter order. -/
structure Acc where
  filesToCopy : List (OsPath × OsPath)
  filesToConvert : List (OsPath × OsPath)
  lines : List String
  events : List Event
deriving DecidableEq, Repr

/-- The empty accumulator. -/
def Acc.nil : Acc := ⟨[], [], [], []⟩

/-- Concatenation of accumulators, preserving encounter order. -/
def Acc.append (a b : Acc) : Acc :=
  ⟨a.filesToCopy ++ b.filesToCopy, a.filesToConvert ++ b.filesToConvert,
    a.lines ++ b.lines, a.events ++ b.events⟩

/-- The entry loop of `main` for one playlist: read errors, URLs and
extension-less entries are skipped with a warning; surviving entries are
classified, pushed onto the matching work list, and their Windows path line
is written to the output playlist. A non-UTF-8 component in the written path
panics (`to_str().unwrap()`); a failed write is fatal. -/
def processEntries (pd od opp : OsPath) (wOk : Bool) :
    List EntryRes → Except Fatal Acc
  | [] => .ok Acc.nil
  | .readErr m :: rest =>
    match processEntries pd od opp wOk rest with
    | .error f => .error f
    | .ok acc => .ok { acc with events := .warnReadErr m :: acc.events }
  | .url u :: rest =>
    match processEntries pd od opp wOk rest with
    | .error f => .error f
    | .ok acc => .ok { acc with events := .warnUrl u :: acc.events }
  | .path p :: rest =>
    match classifyEntry pd od p with
    | none =>
      match processEntries pd od opp wOk rest with
      | .error f => .error f
      | .ok acc => .ok { acc with events := .warnNoExt p :: acc.events }
    | some c =>
      match windowsLine c.relOut with
      | none => .error .panicNonUtf8
      | some s =>
        if wOk then
          match processEntries pd od opp wOk rest with
          | .error f => .error f
          | .ok acc =>
            match c.kind with
            | .copy =>
              .ok ⟨(c.input, c.output) :: acc.filesToCopy, acc.filesToConvert,
                s :: acc.lines, .line opp s :: acc.events⟩
            | .convert =>
              .ok ⟨acc.filesToCopy, (c.input, c.output) :: acc.filesToConvert,
                s :: acc.lines, .line opp s :: acc.events⟩
        else .error (.writeOutputFile opp)

/-- Contents of the output directory's playlist files, keyed by path. -/
abbrev FileSys := List (OsPath × List String)

/-- `File::create` / write-back: set the contents at a path, truncating any
previous contents. -/
def setFile : FileSys → OsPath → List String → FileSys
  | [], p, content => [(p, content)]
  | (q, c) :: rest, p, content =>
    if q = p then (p, content) :: rest else (q, c) :: setFile rest p content

/-- Look up the contents of a playlist file. -/
def lookupFile : FileSys → OsPath → Option (List String)
  | [], _ => none
  | (q, c) :: rest, p => if q = p then some c else lookupFile rest p

/-- The playlist loop of `main`: for each input playlist, open it (fatal on
failure), take its file name (`file_name().unwrap()`), create the output
playlist at `output_dir/<file name>` (truncating, fatal on failure), process
its entries, and flush the writer (fatal on failure). -/
def processPlaylists (od : OsPath) :
    List PlaylistFile → FileSys → Except Fatal (Acc × FileSys)
  | [], fs => .ok (Acc.nil, fs)
  | pl :: rest, fs =>
    if pl.openOk then
      match fileName? pl.path with
      | none => .error (.noFileName pl.path)
      | some nm =>
        let opp := od ++ [nm]
        if pl.createOk then
          let fs1 := setFile fs opp []
          match processEntries (playlistDir pl.path) od opp pl.writeOk pl.entries with
          | .error f => .error f
          | .ok acc =>
            if pl.writeOk then
              let fs2 := setFile fs1 opp acc.lines
              match processPlaylists od rest fs2 with
              | .error f => .error f
              | .ok (accR, fsR) =>
                .ok (Acc.append { acc with events := acc.events ++ [.flushed opp] } accR, fsR)
            else .error (.writeOutputFile opp)
        else .error (.createOutputFile opp)
    else .error (.openPlaylist pl.path)

/-- Outcome of one `ffmpeg` invocation: the process finished (with or without
exit status zero), or it could not be launched. -/
inductive ConvOutcome
  | finished (exitZero : Bool)
  | launchError (msg : String)
deriving DecidableEq, Repr

/-- `output.status.success()` on the collected result; a launch error is never
a success. -/
def isSuccess : ConvOutcome → Bool
  | .finished z => z
  | .launchError _ => false

/-- `PathBuf::into_os_string().into_string()`: `some` exactly when every
component is valid UTF-8 (displayed with `/` separators). -/
def pathToString (p : OsPath) : Option String :=
  if p.all (·.utf8) then
    some (String.intercalate "/" (p.map fun c => String.mk c.chars))
  else none

/-- The argument list passed to the `ffmpeg` command for one convert task. -/
def ffmpegArgs (input output : String) : List String :=
  ["-i", input, "-y", "-vn", "-aq", "2", output]

/-- The fixed size of the conversion worker pool (`let n_workers = 4`). -/
def nWorkers : Nat := 4

/-- One job handed to the worker pool: the index of its convert task, the
`ffmpeg` argument list, and the output path sent back on the channel. -/
structure Spawn where
  taskIndex : Nat
  args : List String
  output : OsPath
deriving DecidableEq, Repr

/-- The submission loop over `files_to_convert`: each task's paths are turned
into strings (panicking on non-UTF-8), the destination parent directory is
created (fatal on failure), and the job is handed to the pool in submission
order. -/
def submitConverts (mkdirOk : OsPath → Bool) :
    List (OsPath × OsPath) → Nat → Except Fatal (List Spawn)
  | [], _ => .ok []
  | (inp, outp) :: rest, i =>
    match pathToString inp with
    | none => .error .panicNonUtf8
    | some istr =>
      match pathToString outp with
      | none => .error .panicNonUtf8
      | some ostr =>
        let dir := outp.dropLast
        if mkdirOk dir then
          match submitConverts mkdirOk rest (i + 1) with
          | .error f => .error f
          | .ok rs => .ok (⟨i, ffmpegArgs istr ostr, outp⟩ :: rs)
        else .error (.createTaskDir dir)

/-- The result-collection loop: results arrive on the channel in completion
order (`arrivals` lists convert-task indices in arrival order); the `i`-th
received result is logged with display index `i + 1`. -/
def collectConverts (convRes : Nat → ConvOutcome) (tasks : List (OsPath × OsPath))
    (total : Nat) : List Nat → Nat → List Event
  | [], _ => []
  | t :: rest, i =>
    .convertDone (i + 1) total (tasks.getD t ([], [])).2 (isSuccess (convRes t))
      :: collectConverts convRes tasks total rest (i + 1)

/-- The sequential copy loop: for the `j`-th copy task (0-based) the
destination parent directory is created (fatal on failure), the file is
copied, and the outcome is logged with display index
`j + num_convert_tasks + 1`. -/
def copyPhase (mkdirOk : OsPath → Bool) (copyRes : OsPath → OsPath → Bool)
    (numConvert total : Nat) : List (OsPath × OsPath) → Nat → Except Fatal (List Event)
  | [], _ => .ok []
  | (inp, outp) :: rest, j =>
    let dir := outp.dropLast
    if mkdirOk dir then
      match copyPhase mkdirOk copyRes numConvert total rest (j + 1) with
      | .error f => .error f
      | .ok evs =>
        .ok (.copyDone (j + numConvert + 1) total outp (copyRes inp outp) :: evs)
    else .error (.createTaskDir dir)

/-- The environment a run executes against: CLI output directory, the input
playlists with their I/O outcomes, the oracles for `create_dir_all`,
`ffmpeg` results and `fs::copy` results, and the completion order of the
conversion worker pool. -/
structure Env where
  outputDir : OsPath
  rootCreateOk : Bool
  playlists : List PlaylistFile
  mkdirOk : OsPath → Bool
  completion : List Nat
  convRes : Nat → ConvOutcome
  copyRes : OsPath → OsPath → Bool

/-- Everything a completed run produced: events of the three stages in program
order, the output playlist files, the two work lists, the submitted jobs and
the process exit status. -/
structure RunOut where
  parseEvents : List Event
  convertEvents : List Event
  copyEvents : List Event
  files : FileSys
  filesToCopy : List (OsPath × OsPath)
  filesToConvert : List (OsPath × OsPath)
  spawns : List Spawn
  exit : Nat
deriving DecidableEq, Repr

/-- The full event trace of a run, in program order. -/
def RunOut.events (o : RunOut) : List Event :=
  o.parseEvents ++ o.convertEvents ++ o.copyEvents

/-- The whole of `main`: create the output root (fatal on failure), parse and
rewrite all playlists, submit all convert tasks to the pool, drain exactly
`files_to_convert.len()` results from the channel, then copy sequentially.
Reaching the end yields exit status 0. -/
def run (env : Env) : Except Fatal RunOut :=
  if env.rootCreateOk then
    match processPlaylists env.outputDir env.playlists [] with
    | .error f => .error f
    | .ok (acc, fs) =>
      match submitConverts env.mkdirOk acc.filesToConvert 0 with
      | .error f => .error f
      | .ok spawns =>
        let numConvert := acc.filesToConvert.length
        let total := acc.filesToCopy.length + numConvert
        let convertEvents := collectConverts env.convRes acc.filesToConvert total
          (env.completion.take numConvert) 0
        match copyPhase env.mkdirOk env.copyRes numConvert total acc.filesToCopy 0 with
        | .error f => .error f
        | .ok copyEvents =>
          .ok ⟨acc.events, convertEvents, copyEvents, fs,
            acc.filesToCopy, acc.filesToConvert, spawns, 0⟩
  else .error .createRootDir

/-! Helper definitions used to state the claims. -/

/-- Events emitted by the playlist-parsing stage. -/
def Event.isParsePhase : Event → Bool
  | .line _ _ => true
  | .flushed _ => true
  | .warnUrl _ => true
  | .warnNoExt _ => true
  | .warnReadErr _ => true
  | _ => false

/-- Progress events of the conversion stage. -/
def Event.isConvertDone : Event → Bool
  | .convertDone _ _ _ _ => true
  | _ => false

/-- Progress events of the copy stage. -/
def Event.isCopyDone : Event → Bool
  | .copyDone _ _ _ _ => true
  | _ => false

/-- The copy task an entry contributes, if any. -/
def entryCopyTask (pd od : OsPath) : EntryRes → Option (OsPath × OsPath)
  | .path p =>
    match classifyEntry pd od p with
    | some c =>
      match c.kind with
      | .copy => some (c.input, c.output)
      | .convert => none
    | none => none
  | _ => none

/-- The convert task an entry contributes, if any. -/
def entryConvertTask (pd od : OsPath) : EntryRes → Option (OsPath × OsPath)
  | .path p =>
    match classifyEntry pd od p with
    | some c =>
      match c.kind with
      | .copy => none
      | .convert => some (c.input, c.output)
    | none => none
  | _ => none

/-- The output-playlist line an entry contributes, if any. -/
def entryLine (pd od : OsPath) : EntryRes → Option String
  | .path p => (classifyEntry pd od p).bind fun c => windowsLine c.relOut
  | _ => none

/-- All copy tasks contributed by one playlist. -/
def playlistCopyTasks (od : OsPath) (pl : PlaylistFile) : List (OsPath × OsPath) :=
  pl.entries.filterMap (entryCopyTask (playlistDir pl.path) od)

/-- All convert tasks contributed by one playlist. -/
def playlistConvertTasks (od : OsPath) (pl : PlaylistFile) : List (OsPath × OsPath) :=
  pl.entries.filterMap (entryConvertTask (playlistDir pl.path) od)

/-- All output-playlist lines contributed by one playlist. -/
def playlistLines (od : OsPath) (pl : PlaylistFile) : List String :=
  pl.entries.filterMap (entryLine (playlistDir pl.path) od)

/-- Shorthand for a valid-UTF-8 component. -/
def vc (s : String) : OsStr := OsStr.ofString s

/-- A sample environment: one playlist with a copy entry, two convert entries,
a URL entry and an extension-less entry; all I/O succeeds; the second convert
task completes before the first; the first conversion succeeds, the second
exits non-zero. -/
def envA : Env where
  outputDir := [vc "output"]
  rootCreateOk := true
  playlists := [⟨[vc "pl.m3u"], true, true, true,
    [.path [vc "a.mp3"], .path [vc "sub", vc "b.wav"], .url "http://example.com/song.mp3",
      .path [vc "noext"], .path [vc "c.ogg"]]⟩]
  mkdirOk := fun _ => true
  completion := [1, 0]
  convRes := fun i => if i = 0 then .finished true else .finished false
  copyRes := fun _ _ => true

/-- A sample environment in which every task fails: the first convert task
exits non-zero, the second cannot even be launched, and the copy fails. -/
def envFail : Env where
  outputDir := [vc "output"]
  rootCreateOk := true
  playlists := [⟨[vc "pl.m3u"], true, true, true,
    [.path [vc "a.mp3"], .path [vc "b.wav"], .path [vc "c.ogg"]]⟩]
  mkdirOk := fun _ => true
  completion := [0, 1]
  convRes := fun i => if i = 0 then .finished false else .launchError "No such file"
  copyRes := fun _ _ => false

/-- A sample environment with two input playlists in different directories
that share the file name `pl.m3u`. -/
def envDup : Env where
  outputDir := [vc "output"]
  rootCreateOk := true
  playlists := [
    ⟨[vc "one", vc "pl.m3u"], true, true, true, [.path [vc "a.mp3"]]⟩,
    ⟨[vc "two", vc "pl.m3u"], true, true, true, [.path [vc "b.mp3"], .path [vc "c.mp3"]]⟩]
  mkdirOk := fun _ => true
  completion := []
  convRes := fun _ => .finished true
  copyRes := fun _ _ => true

/-- Whether every component of a path entry is valid UTF-8 (other entries
count as valid). -/
def EntryRes.allUtf8 : EntryRes → Bool
  | .path p => p.all (·.utf8)
  | _ => true

/-- The output playlist path shared by the sample environments. -/
def oppA : OsPath := [vc "output", vc "pl.m3u"]

/-- The outcome of running `envA`. -/
def outA : RunOut where
  parseEvents := [.line oppA "a.mp3", .line oppA "sub\\b.mp3",
    .warnUrl "http://example.com/song.mp3", .warnNoExt [vc "noext"],
    .line oppA "c.mp3", .flushed oppA]
  convertEvents := [.convertDone 1 3 [vc "output", vc "c.mp3"] false,
    .convertDone 2 3 [vc "output", vc "sub", vc "b.mp3"] true]
  copyEvents := [.copyDone 3 3 [vc "output", vc "a.mp3"] true]
  files := [(oppA, ["a.mp3", "sub\\b.mp3", "c.mp3"])]
  filesToCopy := [([vc ".", vc "a.mp3"], [vc "output", vc "a.mp3"])]
  filesToConvert := [([vc ".", vc "sub", vc "b.wav"], [vc "output", vc "sub", vc "b.mp3"]),
    ([vc ".", vc "c.ogg"], [vc "output", vc "c.mp3"])]
  spawns := [⟨0, ["-i", "./sub/b.wav", "-y", "-vn", "-aq", "2", "output/sub/b.mp3"],
      [vc "output", vc "sub", vc "b.mp3"]⟩,
    ⟨1, ["-i", "./c.ogg", "-y", "-vn", "-aq", "2", "output/c.mp3"],
      [vc "output", vc "c.mp3"]⟩]
  exit := 0

/-- The outcome of running `envDup`. -/
def outDup : RunOut where
  parseEvents := [.line oppA "a.mp3", .flushed oppA,
    .line oppA "b.mp3", .line oppA "c.mp3", .flushed oppA]
  convertEvents := []
  copyEvents := [.copyDone 1 3 [vc "output", vc "a.mp3"] true,
    .copyDone 2 3 [vc "output", vc "b.mp3"] true,
    .copyDone 3 3 [vc "output", vc "c.mp3"] true]
  files := [(oppA, ["b.mp3", "c.mp3"])]
  filesToCopy := [([vc "one", vc "a.mp3"], [vc "output", vc "a.mp3"]),
    ([vc "two", vc "b.mp3"], [vc "output", vc "b.mp3"]),
    ([vc "two", vc "c.mp3"], [vc "output", vc "c.mp3"])]
  filesToConvert := []
  spawns := []
  exit := 0

/-! Basic lemmas about the path functions. -/

theorem splitLastDot_of_not_mem {l : List Char} (h : '.' ∉ l) : splitLastDot l = none := by
  induction l with
  | nil => rfl
  | cons c cs ih =>
    rw [splitLastDot, ih (fun hm => h (List.mem_cons_of_mem _ hm))]
    simp only [List.mem_cons, not_or] at h
    simp [Ne.symm h.1]

theorem splitLastDot_append_dot {xs ys : List Char} (h : '.' ∉ ys) :
    splitLastDot (xs ++ '.' :: ys) = some (xs, ys) := by
  induction xs with
  | nil => rw [List.nil_append, splitLastDot, splitLastDot_of_not_mem h]; simp
  | cons x xs ih => rw [List.cons_append, splitLastDot, ih]

theorem rustExtension_ne_parent {f : List Char} {e : List Char}
    (h : rustExtension f = some e) : f ≠ ['.', '.'] := by
  intro hf
  rw [rustExtension, if_pos hf] at h
  exact Option.noConfusion h

theorem rustExtension_eq_some {f e : List Char} (h : rustExtension f = some e) :
    ∃ st, st ≠ [] ∧ splitLastDot f = some (st, e) := by
  rw [rustExtension] at h
  split at h
  · exact absurd h Option.noConfusion
  · split at h
    · exact absurd h Option.noConfusion
    · exact absurd h Option.noConfusion
    · rename_i a st ex heq
      refine ⟨a :: st, by simp, ?_⟩
      rw [heq, Option.some_inj.mp h]

theorem fileStemChars_of_splitLastDot {f st ex : List Char}
    (h : splitLastDot f = some (st, ex)) (hst : st ≠ []) : fileStemChars f = st := by
  rw [fileStemChars, h]
  cases st with
  | nil => exact absurd rfl hst
  | cons a as => rfl

theorem rustExtension_setExtMp3 {c : OsStr} {e : List Char}
    (h : rustExtension c.chars = some e) :
    rustExtension (setExtMp3 c).chars = some mp3Chars := by
  obtain ⟨st, hst, hsplit⟩ := rustExtension_eq_some h
  have hstem : fileStemChars c.chars = st := fileStemChars_of_splitLastDot hsplit hst
  have hchars : (setExtMp3 c).chars = st ++ '.' :: ['m', 'p', '3'] := by
    rw [setExtMp3, hstem]
  rw [rustExtension, hchars]
  have hne : st ++ '.' :: ['m', 'p', '3'] ≠ ['.', '.'] := by
    intro hcontra
    have := congrArg List.length hcontra
    simp [List.length_append] at this
  rw [if_neg hne, splitLastDot_append_dot (by decide)]
  cases st with
  | nil => exact absurd rfl hst
  | cons a as => rfl

theorem withExtensionMp3_concat (xs : List OsStr) (c : OsStr) :
    withExtensionMp3 (xs ++ [c]) =
      xs ++ [if c.chars = ['.', '.'] then c else setExtMp3 c] := by
  induction xs with
  | nil =>
    simp only [List.nil_append]
    rw [withExtensionMp3]
    split <;> simp_all
  | cons x xs ih =>
    cases xs with
    | nil => simp_all [withExtensionMp3]
    | cons y ys => simp_all [withExtensionMp3]

theorem pathExtension_concat (xs : List OsStr) (c : OsStr) :
    pathExtension (xs ++ [c]) = rustExtension c.chars := by
  rw [pathExtension, List.getLast?_concat]

theorem exists_concat_of_pathExtension {p : OsPath} {e : List Char}
    (h : pathExtension p = some e) :
    ∃ xs c, p = xs ++ [c] ∧ rustExtension c.chars = some e := by
  cases hp : p.getLast? with
  | none => rw [pathExtension, hp] at h; exact absurd h Option.noConfusion
  | some c =>
    have hne : p ≠ [] := by intro hnil; rw [hnil] at hp; exact Option.noConfusion hp
    refine ⟨p.dropLast, c, ?_, ?_⟩
    · have h1 := List.dropLast_append_getLast hne
      have h2 : p.getLast hne = c := by
        rw [List.getLast?_eq_getLast p hne] at hp
        exact Option.some_inj.mp hp
      rw [h2] at h1
      exact h1.symm
    · rw [pathExtension, hp] at h; exact h

/-! The claims. -/

/-- C1: for a surviving entry whose extension is (case-sensitively) exactly
`mp3`, the classifier yields a Copy task whose input path is the playlist
directory (empty parent normalized to `.`) joined with the entry path and
whose output path is the output root joined with the unchanged entry path; for
any other extension it yields a Convert task whose output path is the output
root joined with the entry path with its extension replaced by `mp3`, all
other components (and the file stem) unchanged. -/
theorem claim1_classification (playlistPath outputRoot p : OsPath) :
    (playlistDir playlistPath =
      if playlistPath.dropLast = [] then [OsStr.ofString "."] else playlistPath.dropLast)
    ∧ (pathExtension p = some mp3Chars →
        classifyEntry (playlistDir playlistPath) outputRoot p =
          some ⟨.copy, playlistDir playlistPath ++ p, outputRoot ++ p, p⟩)
    ∧ (∀ ext, pathExtension p = some ext → ext ≠ mp3Chars →
        classifyEntry (playlistDir playlistPath) outputRoot p =
          some ⟨.convert, playlistDir playlistPath ++ p,
            outputRoot ++ withExtensionMp3 p, withExtensionMp3 p⟩
        ∧ (withExtensionMp3 p).dropLast = p.dropLast
        ∧ (∃ c, p.getLast? = some c ∧
            (withExtensionMp3 p).getLast? = some (setExtMp3 c))
        ∧ pathExtension (withExtensionMp3 p) = some mp3Chars) := by
  refine ⟨rfl, ?_, ?_⟩
  · intro h
    simp [classifyEntry, h]
  · intro ext h hne
    obtain ⟨xs, c, hp, hext⟩ := exists_concat_of_pathExtension h
    have hnp : c.chars ≠ ['.', '.'] := rustExtension_ne_parent hext
    have hw : withExtensionMp3 p = xs ++ [setExtMp3 c] := by
      rw [hp, withExtensionMp3_concat, if_neg hnp]
    refine ⟨?_, ?_, ?_, ?_⟩
    · simp [classifyEntry, h, hne]
    · rw [hw, hp, List.dropLast_concat, List.dropLast_concat]
    · exact ⟨c, by rw [hp, List.getLast?_concat], by rw [hw, List.getLast?_concat]⟩
    · rw [hw, pathExtension_concat]
      exact rustExtension_setExtMp3 hext

/-- Witness for C1 at a concrete convert entry. -/
theorem claim1_witness :
    classifyEntry (playlistDir [vc "pl.m3u"]) [vc "output"] [vc "sub", vc "b.wav"] =
      some ⟨.convert, [vc ".", vc "sub", vc "b.wav"],
        [vc "output", vc "sub", vc "b.mp3"], [vc "sub", vc "b.mp3"]⟩ := by
  have h := (claim1_classification [vc "pl.m3u"] [vc "output"] [vc "sub", vc "b.wav"]).2.2
    ['w', 'a', 'v'] (by decide) (by decide)
  rw [h.1]; decide

/-! Lemmas about the Windows path fold. -/

theorem windowsFold_of_utf8 {p : OsPath} (h : ∀ x ∈ p, x.utf8 = true) :
    windowsFold p = some ((p.map fun x => x.chars ++ ['\\']).flatten) := by
  induction p with
  | nil => rfl
  | cons c cs ih =>
    have hc : c.utf8 = true := h c (List.mem_cons_self ..)
    rw [windowsFold, hc, ih fun x hx => h x (List.mem_cons_of_mem _ hx)]
    simp

theorem utf8_of_windowsFold {p : OsPath} {l : List Char} (h : windowsFold p = some l) :
    ∀ x ∈ p, x.utf8 = true := by
  induction p generalizing l with
  | nil => intro x hx; exact absurd hx (List.not_mem_nil x)
  | cons c cs ih =>
    rw [windowsFold] at h
    intro x hx
    match hu : c.utf8, hf : windowsFold cs with
    | true, some rest =>
      rcases List.mem_cons.mp hx with hx | hx
      · rw [hx]; exact hu
      · exact ih hf x hx
    | true, none => rw [hu, hf] at h; exact absurd h Option.noConfusion
    | false, some rest => rw [hu, hf] at h; exact absurd h Option.noConfusion
    | false, none => rw [hu, hf] at h; exact absurd h Option.noConfusion

theorem intercalate_cons_cons (sep : List Char) (x y : List Char) (ys : List (List Char)) :
    List.intercalate sep (x :: y :: ys) = x ++ sep ++ List.intercalate sep (y :: ys) := by
  simp [List.intercalate, List.intersperse]

theorem dropLast_flatten_map_concat (sep : Char) (L : List (List Char)) :
    ((L.map fun x => x ++ [sep]).flatten).dropLast = List.intercalate [sep] L := by
  induction L with
  | nil => simp [List.intercalate]
  | cons x ys ih =>
    cases ys with
    | nil => simp [List.intercalate]
    | cons y ys =>
      rw [List.map_cons, List.flatten_cons, intercalate_cons_cons, ← ih]
      rw [List.dropLast_append_of_ne_nil, List.append_assoc]
      simp

theorem intercalate_head?_ne {sep : Char} {x : List Char} {L : List (List Char)}
    (hx : x ≠ []) (hsep : sep ∉ x) :
    (List.intercalate [sep] (x :: L)).head? ≠ some sep := by
  cases x with
  | nil => exact absurd rfl hx
  | cons a t =>
    have ha : a ≠ sep := fun h => hsep (h ▸ List.mem_cons_self ..)
    cases L with
    | nil =>
      simp only [List.intercalate, List.intersperse, List.flatten]
      simp [ha]
    | cons y ys =>
      rw [intercalate_cons_cons]
      simp [ha]

theorem intercalate_ne_nil {sep : Char} {x : List Char} {L : List (List Char)}
    (hx : x ≠ []) : List.intercalate [sep] (x :: L) ≠ [] := by
  cases x with
  | nil => exact absurd rfl hx
  | cons a t =>
    cases L with
    | nil => simp [List.intercalate, List.intersperse]
    | cons y ys => rw [intercalate_cons_cons]; simp

theorem intercalate_getLast?_ne {sep : Char} {L : List (List Char)}
    (hL : ∀ x ∈ L, x ≠ []) (hsep : ∀ x ∈ L, sep ∉ x) :
    (List.intercalate [sep] L).getLast? ≠ some sep := by
  induction L with
  | nil => simp [List.intercalate]
  | cons x ys ih =>
    cases ys with
    | nil =>
      have hx : x ≠ [] := hL x (List.mem_cons_self ..)
      have hs : sep ∉ x := hsep x (List.mem_cons_self ..)
      simp only [List.intercalate, List.intersperse, List.flatten, List.append_nil]
      intro h
      obtain ⟨hne2, hx2⟩ := List.mem_getLast?_eq_getLast (Option.mem_def.mpr h)
      exact hs (hx2 ▸ List.getLast_mem hne2)
    | cons y ys =>
      rw [intercalate_cons_cons]
      have hy : List.intercalate [sep] (y :: ys) ≠ [] :=
        intercalate_ne_nil (hL y (List.mem_cons_of_mem _ (List.mem_cons_self ..)))
      rw [List.getLast?_append_of_ne_nil _ hy]
      exact ih (fun z hz => hL z (List.mem_cons_of_mem _ hz))
        (fun z hz => hsep z (List.mem_cons_of_mem _ hz))

theorem classifyEntry_spec {pd od p : OsPath} {c : Classified}
    (h : classifyEntry pd od p = some c) :
    ∃ e, pathExtension p = some e ∧
      ((e = mp3Chars ∧ c = ⟨.copy, pd ++ p, od ++ p, p⟩) ∨
        (e ≠ mp3Chars ∧
          c = ⟨.convert, pd ++ p, od ++ withExtensionMp3 p, withExtensionMp3 p⟩)) := by
  cases he : pathExtension p with
  | none => simp [classifyEntry, he] at h
  | some e =>
    simp only [classifyEntry, he] at h
    refine ⟨e, rfl, ?_⟩
    by_cases hm : e = mp3Chars
    · rw [if_pos hm] at h
      exact Or.inl ⟨hm, (Option.some_inj.mp h).symm⟩
    · rw [if_neg hm] at h
      exact Or.inr ⟨hm, (Option.some_inj.mp h).symm⟩

theorem relOut_ne_nil {pd od p : OsPath} {c : Classified}
    (h : classifyEntry pd od p = some c) : c.relOut ≠ [] := by
  obtain ⟨e, he, hcase⟩ := classifyEntry_spec h
  obtain ⟨xs, lc, hp, -⟩ := exists_concat_of_pathExtension he
  rcases hcase with ⟨-, hc⟩ | ⟨-, hc⟩
  · rw [hc, hp]; simp
  · rw [hc]
    simp only
    rw [hp, withExtensionMp3_concat]
    simp

/-- C4: the line written to the output playlist for a surviving entry is the
components of the output-root-relative output path joined with backslash
separators (no leading or trailing backslash when the components are nonempty
and backslash-free), and that relative path is determined by the entry alone:
the output path is the output root joined with it, and it does not depend on
the playlist directory used to resolve the absolute input path. -/
theorem claim4_windows_line (pd od p : OsPath) (c : Classified)
    (hc : classifyEntry pd od p = some c)
    (hutf : ∀ x ∈ c.relOut, x.utf8 = true) :
    windowsLine c.relOut =
      some (String.mk (List.intercalate ['\\'] (c.relOut.map OsStr.chars)))
    ∧ od ++ c.relOut = c.output
    ∧ (∀ pd', ∃ c', classifyEntry pd' od p = some c' ∧ c'.relOut = c.relOut)
    ∧ ((∀ x ∈ c.relOut, x.chars ≠ [] ∧ '\\' ∉ x.chars) →
        ∀ l, windowsLine c.relOut = some l →
          l.data.head? ≠ some '\\' ∧ l.data.getLast? ≠ some '\\') := by
  obtain ⟨e, he, hcase⟩ := classifyEntry_spec hc
  have hd : ((c.relOut.map fun x => x.chars ++ ['\\']).flatten).dropLast
      = List.intercalate ['\\'] (c.relOut.map OsStr.chars) := by
    rw [← dropLast_flatten_map_concat '\\' (c.relOut.map OsStr.chars), List.map_map]
    rfl
  have hline : windowsLine c.relOut =
      some (String.mk (List.intercalate ['\\'] (c.relOut.map OsStr.chars))) := by
    rw [windowsLine, windowsFold_of_utf8 hutf]
    simp [hd]
  refine ⟨hline, ?_, ?_, ?_⟩
  · rcases hcase with ⟨-, hcc⟩ | ⟨-, hcc⟩ <;> rw [hcc]
  · intro pd'
    rcases hcase with ⟨hm, hcc⟩ | ⟨hm, hcc⟩
    · exact ⟨⟨.copy, pd' ++ p, od ++ p, p⟩, by simp [classifyEntry, he, hm],
        by rw [hcc]⟩
    · exact ⟨⟨.convert, pd' ++ p, od ++ withExtensionMp3 p, withExtensionMp3 p⟩,
        by simp [classifyEntry, he, hm], by rw [hcc]⟩
  · intro hcomp l hl
    rw [hline, Option.some_inj] at hl
    have hrel : c.relOut ≠ [] := relOut_ne_nil hc
    cases hr : c.relOut with
    | nil => exact absurd hr hrel
    | cons x xs =>
      have hx : x.chars ≠ [] := ((hcomp x (hr ▸ List.mem_cons_self ..)).1)
      have hxs : '\\' ∉ x.chars := ((hcomp x (hr ▸ List.mem_cons_self ..)).2)
      constructor
      · rw [← hl]
        simp only [String.mk]
        rw [hr, List.map_cons]
        exact intercalate_head?_ne hx hxs
      · rw [← hl]
        simp only [String.mk]
        rw [hr, List.map_cons]
        refine intercalate_getLast?_ne ?_ ?_
        · intro z hz
          rw [← List.map_cons, ← hr] at hz
          rcases List.mem_map.mp hz with ⟨w, hw, hwz⟩
          exact hwz ▸ (hcomp w hw).1
        · intro z hz
          rw [← List.map_cons, ← hr] at hz
          rcases List.mem_map.mp hz with ⟨w, hw, hwz⟩
          exact hwz ▸ (hcomp w hw).2

/-- Witness for C4 at a concrete two-component convert entry. -/
theorem claim4_witness :
    windowsLine [vc "sub", vc "b.mp3"] = some "sub\\b.mp3" := by
  have h := claim4_windows_line (playlistDir [vc "pl.m3u"]) [vc "output"]
    [vc "sub", vc "b.wav"] ⟨.convert, [vc ".", vc "sub", vc "b.wav"],
      [vc "output", vc "sub", vc "b.mp3"], [vc "sub", vc "b.mp3"]⟩
    (by decide) (by decide)
  rw [h.1]; decide

/-! Lemmas about the entry-processing loop. -/

theorem utf8_withExtensionMp3 {p : OsPath} (h : ∀ x ∈ p, x.utf8 = true) :
    ∀ x ∈ withExtensionMp3 p, x.utf8 = true := by
  induction p with
  | nil => intro x hx; rw [withExtensionMp3] at hx; exact absurd hx (List.not_mem_nil x)
  | cons c cs ih =>
    cases cs with
    | nil =>
      intro x hx
      rw [withExtensionMp3] at hx
      split at hx
      · rcases List.mem_singleton.mp hx with rfl
        exact h x (List.mem_cons_self ..)
      · rcases List.mem_singleton.mp hx with rfl
        exact h c (List.mem_cons_self ..)
    | cons c' cs' =>
      intro x hx
      rw [withExtensionMp3] at hx
      rcases List.mem_cons.mp hx with rfl | hx
      · exact h x (List.mem_cons_self ..)
      · exact ih (fun y hy => h y (List.mem_cons_of_mem _ hy)) x hx

theorem utf8_of_withExtensionMp3 {p : OsPath}
    (h : ∀ x ∈ withExtensionMp3 p, x.utf8 = true) : ∀ x ∈ p, x.utf8 = true := by
  induction p with
  | nil => intro x hx; exact absurd hx (List.not_mem_nil x)
  | cons c cs ih =>
    cases cs with
    | nil =>
      intro x hx
      rcases List.mem_singleton.mp hx with rfl
      rw [withExtensionMp3] at h
      split at h
      · exact h x (List.mem_singleton.mpr rfl)
      · have := h (setExtMp3 x) (List.mem_singleton.mpr rfl)
        rw [setExtMp3] at this
        exact this
    | cons c' cs' =>
      intro x hx
      rw [withExtensionMp3] at h
      rcases List.mem_cons.mp hx with rfl | hx
      · exact h x (List.mem_cons_self ..)
      · exact ih (fun y hy => h y (List.mem_cons_of_mem _ hy)) x hx

theorem processEntries_ok {pd od opp : OsPath} {wOk : Bool} {entries : List EntryRes}
    {acc : Acc} (h : processEntries pd od opp wOk entries = .ok acc) :
    acc.filesToCopy = entries.filterMap (entryCopyTask pd od)
    ∧ acc.filesToConvert = entries.filterMap (entryConvertTask pd od)
    ∧ acc.lines = entries.filterMap (entryLine pd od)
    ∧ (∀ u, .url u ∈ entries → Event.warnUrl u ∈ acc.events)
    ∧ (∀ q, .path q ∈ entries → pathExtension q = none → Event.warnNoExt q ∈ acc.events)
    ∧ (∀ ev ∈ acc.events, ev.isParsePhase = true)
    ∧ (∀ q, .path q ∈ entries → pathExtension q ≠ none → ∀ x ∈ q, x.utf8 = true) := by
  induction entries generalizing acc with
  | nil =>
    simp only [processEntries] at h
    injection h with h
    subst h
    refine ⟨rfl, rfl, rfl, ?_, ?_, ?_, ?_⟩ <;> simp [Acc.nil]
  | cons e rest ih =>
    cases e with
    | readErr m =>
      cases hrest : processEntries pd od opp wOk rest with
      | error f => simp [processEntries, hrest] at h
      | ok a =>
        simp only [processEntries, hrest] at h
        injection h with h
        subst h
        obtain ⟨h1, h2, h3, h4, h5, h6, h7⟩ := ih hrest
        refine ⟨?_, ?_, ?_, ?_, ?_, ?_, ?_⟩
        · simpa [List.filterMap_cons, entryCopyTask] using h1
        · simpa [List.filterMap_cons, entryConvertTask] using h2
        · simpa [List.filterMap_cons, entryLine] using h3
        · intro u hu
          rcases List.mem_cons.mp hu with hu | hu
          · exact absurd hu (by simp)
          · exact List.mem_cons_of_mem _ (h4 u hu)
        · intro q hq hqe
          rcases List.mem_cons.mp hq with hq | hq
          · exact absurd hq (by simp)
          · exact List.mem_cons_of_mem _ (h5 q hq hqe)
        · intro ev hev
          rcases List.mem_cons.mp hev with rfl | hev
          · rfl
          · exact h6 ev hev
        · intro q hq hqe
          rcases List.mem_cons.mp hq with hq | hq
          · exact absurd hq (by simp)
          · exact h7 q hq hqe
    | url u0 =>
      cases hrest : processEntries pd od opp wOk rest with
      | error f => simp [processEntries, hrest] at h
      | ok a =>
        simp only [processEntries, hrest] at h
        injection h with h
        subst h
        obtain ⟨h1, h2, h3, h4, h5, h6, h7⟩ := ih hrest
        refine ⟨?_, ?_, ?_, ?_, ?_, ?_, ?_⟩
        · simpa [List.filterMap_cons, entryCopyTask] using h1
        · simpa [List.filterMap_cons, entryConvertTask] using h2
        · simpa [List.filterMap_cons, entryLine] using h3
        · intro u hu
          rcases List.mem_cons.mp hu with hu | hu
          · injection hu with hu
            subst hu
            exact List.mem_cons_self ..
          · exact List.mem_cons_of_mem _ (h4 u hu)
        · intro q hq hqe
          rcases List.mem_cons.mp hq with hq | hq
          · exact absurd hq (by simp)
          · exact List.mem_cons_of_mem _ (h5 q hq hqe)
        · intro ev hev
          rcases List.mem_cons.mp hev with rfl | hev
          · rfl
          · exact h6 ev hev
        · intro q hq hqe
          rcases List.mem_cons.mp hq with hq | hq
          · exact absurd hq (by simp)
          · exact h7 q hq hqe
    | path p0 =>
      cases hcl : classifyEntry pd od p0 with
      | none =>
        have hnone : pathExtension p0 = none := by
          cases hpe : pathExtension p0 with
          | none => rfl
          | some e =>
            simp only [classifyEntry, hpe] at hcl
            split at hcl <;> simp at hcl
        cases hrest : processEntries pd od opp wOk rest with
        | error f => simp [processEntries, hcl, hrest] at h
        | ok a =>
          simp only [processEntries, hcl, hrest] at h
          injection h with h
          subst h
          obtain ⟨h1, h2, h3, h4, h5, h6, h7⟩ := ih hrest
          refine ⟨?_, ?_, ?_, ?_, ?_, ?_, ?_⟩
          · simpa [List.filterMap_cons, entryCopyTask, hcl] using h1
          · simpa [List.filterMap_cons, entryConvertTask, hcl] using h2
          · simpa [List.filterMap_cons, entryLine, hcl] using h3
          · intro u hu
            rcases List.mem_cons.mp hu with hu | hu
            · exact absurd hu (by simp)
            · exact List.mem_cons_of_mem _ (h4 u hu)
          · intro q hq hqe
            rcases List.mem_cons.mp hq with hq | hq
            · injection hq with hq
              subst hq
              exact List.mem_cons_self ..
            · exact List.mem_cons_of_mem _ (h5 q hq hqe)
          · intro ev hev
            rcases List.mem_cons.mp hev with rfl | hev
            · rfl
            · exact h6 ev hev
          · intro q hq hqe
            rcases List.mem_cons.mp hq with hq | hq
            · injection hq with hq
              subst hq
              exact absurd hnone hqe
            · exact h7 q hq hqe
      | some c =>
        have hsome : pathExtension p0 ≠ none := by
          intro hpe
          simp [classifyEntry, hpe] at hcl
        cases hwl : windowsLine c.relOut with
        | none => simp [processEntries, hcl, hwl] at h
        | some s =>
          cases wOk with
          | false => simp [processEntries, hcl, hwl] at h
          | true =>
            cases hrest : processEntries pd od opp true rest with
            | error f => simp [processEntries, hcl, hwl, hrest] at h
            | ok a =>
              simp only [processEntries, hcl, hwl, hrest, if_true] at h
              obtain ⟨h1, h2, h3, h4, h5, h6, h7⟩ := ih hrest
              have hutf : ∀ x ∈ p0, x.utf8 = true := by
                obtain ⟨e, he, hcase⟩ := classifyEntry_spec hcl
                have hfold : ∀ x ∈ c.relOut, x.utf8 = true := by
                  cases hwf : windowsFold c.relOut with
                  | none => rw [windowsLine, hwf] at hwl; exact absurd hwl (by simp)
                  | some l => exact utf8_of_windowsFold hwf
                rcases hcase with ⟨-, hcc⟩ | ⟨-, hcc⟩
                · rw [hcc] at hfold; exact hfold
                · rw [hcc] at hfold; exact utf8_of_withExtensionMp3 hfold
              cases hk : c.kind with
              | copy =>
                simp only [hk] at h
                injection h with h
                subst h
                refine ⟨?_, ?_, ?_, ?_, ?_, ?_, ?_⟩
                · have hcp : entryCopyTask pd od (.path p0) = some (c.input, c.output) := by
                    simp only [entryCopyTask, hcl, hk]
                  simp only [List.filterMap_cons, hcp]
                  exact congrArg _ h1
                · have hcv : entryConvertTask pd od (.path p0) = none := by
                    simp only [entryConvertTask, hcl, hk]
                  simp only [List.filterMap_cons, hcv]
                  exact h2
                · have hln : entryLine pd od (.path p0) = some s := by
                    simp [entryLine, hcl, hwl]
                  simp only [List.filterMap_cons, hln]
                  exact congrArg _ h3
                · intro u hu
                  rcases List.mem_cons.mp hu with hu | hu
                  · exact absurd hu (by simp)
                  · exact List.mem_cons_of_mem _ (h4 u hu)
                · intro q hq hqe
                  rcases List.mem_cons.mp hq with hq | hq
                  · injection hq with hq
                    subst hq
                    exact absurd hqe hsome
                  · exact List.mem_cons_of_mem _ (h5 q hq hqe)
                · intro ev hev
                  rcases List.mem_cons.mp hev with rfl | hev
                  · rfl
                  · exact h6 ev hev
                · intro q hq hqe
                  rcases List.mem_cons.mp hq with hq | hq
                  · injection hq with hq
                    subst hq
                    exact hutf
                  · exact h7 q hq hqe
              | convert =>
                simp only [hk] at h
                injection h with h
                subst h
                refine ⟨?_, ?_, ?_, ?_, ?_, ?_, ?_⟩
                · have hcp : entryCopyTask pd od (.path p0) = none := by
                    simp only [entryCopyTask, hcl, hk]
                  simp only [List.filterMap_cons, hcp]
                  exact h1
                · have hcv : entryConvertTask pd od (.path p0) = some (c.input, c.output) := by
                    simp only [entryConvertTask, hcl, hk]
                  simp only [List.filterMap_cons, hcv]
                  exact congrArg _ h2
                · have hln : entryLine pd od (.path p0) = some s := by
                    simp [entryLine, hcl, hwl]
                  simp only [List.filterMap_cons, hln]
                  exact congrArg _ h3
                · intro u hu
                  rcases List.mem_cons.mp hu with hu | hu
                  · exact absurd hu (by simp)
                  · exact List.mem_cons_of_mem _ (h4 u hu)
                · intro q hq hqe
                  rcases List.mem_cons.mp hq with hq | hq
                  · injection hq with hq
                    subst hq
                    exact absurd hqe hsome
                  · exact List.mem_cons_of_mem _ (h5 q hq hqe)
                · intro ev hev
                  rcases List.mem_cons.mp hev with rfl | hev
                  · rfl
                  · exact h6 ev hev
                · intro q hq hqe
                  rcases List.mem_cons.mp hq with hq | hq
                  · injection hq with hq
                    subst hq
                    exact hutf
                  · exact h7 q hq hqe

/-- C7: every URL entry and every entry without a file extension produces no
copy task, no convert task, and no output-playlist line; a warning is logged
for it; and processing continues through the remaining entries (the surviving
output is exactly the entry-wise contribution of the other entries). -/
theorem claim7_skip_url_noext {pd od opp : OsPath} {wOk : Bool}
    {entries : List EntryRes} {acc : Acc}
    (h : processEntries pd od opp wOk entries = .ok acc) :
    (∀ u, .url u ∈ entries →
      entryCopyTask pd od (.url u) = none ∧ entryConvertTask pd od (.url u) = none
      ∧ entryLine pd od (.url u) = none
      ∧ Event.warnUrl u ∈ acc.events ∧ (Event.warnUrl u).level = .warn)
    ∧ (∀ p, .path p ∈ entries → pathExtension p = none →
      entryCopyTask pd od (.path p) = none ∧ entryConvertTask pd od (.path p) = none
      ∧ entryLine pd od (.path p) = none
      ∧ Event.warnNoExt p ∈ acc.events ∧ (Event.warnNoExt p).level = .warn)
    ∧ acc.filesToCopy = entries.filterMap (entryCopyTask pd od)
    ∧ acc.filesToConvert = entries.filterMap (entryConvertTask pd od)
    ∧ acc.lines = entries.filterMap (entryLine pd od) := by
  obtain ⟨h1, h2, h3, h4, h5, h6, h7⟩ := processEntries_ok h
  refine ⟨?_, ?_, h1, h2, h3⟩
  · intro u hu
    exact ⟨rfl, rfl, rfl, h4 u hu, rfl⟩
  · intro p hp hpe
    have hcl : classifyEntry pd od p = none := by simp [classifyEntry, hpe]
    refine ⟨?_, ?_, ?_, h5 p hp hpe, rfl⟩
    · simp [entryCopyTask, hcl]
    · simp [entryConvertTask, hcl]
    · simp [entryLine, hcl]

/-- Witness for C7 at a concrete URL entry and a concrete extension-less
entry. -/
theorem claim7_witness :
    Event.warnUrl "http://x" ∈
        ([Event.warnUrl "http://x", Event.warnNoExt [vc "noext"]] : List Event)
    ∧ Event.warnNoExt [vc "noext"] ∈
        ([Event.warnUrl "http://x", Event.warnNoExt [vc "noext"]] : List Event) := by
  have h := claim7_skip_url_noext (show processEntries [vc "."] [vc "output"]
    [vc "output", vc "pl.m3u"] true [.url "http://x", .path [vc "noext"]] =
      .ok ⟨[], [], [], [.warnUrl "http://x", .warnNoExt [vc "noext"]]⟩ from rfl)
  exact ⟨(h.1 "http://x" (by decide)).2.2.2.1,
    (h.2.1 [vc "noext"] (by decide) (by decide)).2.2.2.1⟩

/-! Lemmas about the playlist loop. -/

theorem getLast?_of_fileName? {p : OsPath} {nm : OsStr} (h : fileName? p = some nm) :
    p.getLast? = some nm := by
  cases hg : p.getLast? with
  | none => simp [fileName?, hg] at h
  | some c =>
    simp only [fileName?, hg] at h
    split at h
    · exact absurd h Option.noConfusion
    · exact h

theorem processPlaylists_ok {od : OsPath} {pls : List PlaylistFile} {fs0 fs : FileSys}
    {acc : Acc} (h : processPlaylists od pls fs0 = .ok (acc, fs)) :
    (∀ pl ∈ pls, pl.openOk = true ∧ pl.createOk = true ∧ pl.writeOk = true)
    ∧ acc.filesToCopy = (pls.map (playlistCopyTasks od)).flatten
    ∧ acc.filesToConvert = (pls.map (playlistConvertTasks od)).flatten
    ∧ (∀ ev ∈ acc.events, ev.isParsePhase = true)
    ∧ (∀ pl ∈ pls, ∃ nm, pl.path.getLast? = some nm
        ∧ Event.flushed (od ++ [nm]) ∈ acc.events)
    ∧ (∀ pl ∈ pls, ∀ q, .path q ∈ pl.entries → pathExtension q ≠ none →
        ∀ x ∈ q, x.utf8 = true) := by
  induction pls generalizing fs0 acc fs with
  | nil =>
    simp only [processPlaylists] at h
    injection h with h
    injection h with h1 h2
    subst h1
    refine ⟨?_, rfl, rfl, ?_, ?_, ?_⟩ <;> simp [Acc.nil]
  | cons pl rest ih =>
    cases hopen : pl.openOk with
    | false => simp [processPlaylists, hopen] at h
    | true =>
      cases hnm : fileName? pl.path with
      | none => simp [processPlaylists, hopen, hnm] at h
      | some nm =>
        cases hcreate : pl.createOk with
        | false => simp [processPlaylists, hopen, hnm, hcreate] at h
        | true =>
          cases hw : pl.writeOk with
          | false =>
            cases hpe : processEntries (playlistDir pl.path) od (od ++ [nm]) false pl.entries with
            | error f => simp [processPlaylists, hopen, hnm, hcreate, hw, hpe] at h
            | ok acc1 => simp [processPlaylists, hopen, hnm, hcreate, hw, hpe] at h
          | true =>
            cases hpe : processEntries (playlistDir pl.path) od (od ++ [nm]) true pl.entries with
            | error f => simp [processPlaylists, hopen, hnm, hcreate, hw, hpe] at h
            | ok acc1 =>
              cases hrest : processPlaylists od rest
                  (setFile (setFile fs0 (od ++ [nm]) []) (od ++ [nm]) acc1.lines) with
              | error f => simp [processPlaylists, hopen, hnm, hcreate, hw, hpe, hrest] at h
              | ok pr =>
                obtain ⟨accR, fsR⟩ := pr
                simp only [processPlaylists, hopen, hnm, hcreate, hw, hpe, hrest,
                  if_true] at h
                injection h with h
                injection h with hAcc hFs
                subst hAcc
                obtain ⟨g1, g2, g3, g4, g5, g6⟩ := ih hrest
                obtain ⟨e1, e2, e3, e4, e5, e6, e7⟩ := processEntries_ok hpe
                refine ⟨?_, ?_, ?_, ?_, ?_, ?_⟩
                · intro q hq
                  rcases List.mem_cons.mp hq with rfl | hq
                  · exact ⟨hopen, hcreate, hw⟩
                  · exact g1 q hq
                · simp only [Acc.append, List.map_cons, List.flatten_cons]
                  rw [e1, g2]
                  rfl
                · simp only [Acc.append, List.map_cons, List.flatten_cons]
                  rw [e2, g3]
                  rfl
                · intro ev hev
                  simp only [Acc.append, List.mem_append] at hev
                  rcases hev with (hev | hev) | hev
                  · exact e6 ev hev
                  · rcases List.mem_singleton.mp hev with rfl
                    rfl
                  · exact g4 ev hev
                · intro q hq
                  rcases List.mem_cons.mp hq with rfl | hq
                  · refine ⟨nm, getLast?_of_fileName? hnm, ?_⟩
                    simp [Acc.append]
                  · obtain ⟨nm', hnm', hm⟩ := g5 q hq
                    refine ⟨nm', hnm', ?_⟩
                    simp only [Acc.append, List.mem_append]
                    exact Or.inr hm
                · intro q hq
                  rcases List.mem_cons.mp hq with rfl | hq
                  · exact e7
                  · exact g6 q hq

theorem lookupFile_setFile_self (fs : FileSys) (p : OsPath) (v : List String) :
    lookupFile (setFile fs p v) p = some v := by
  induction fs with
  | nil => simp [setFile, lookupFile]
  | cons kv rest ih =>
    obtain ⟨q, c⟩ := kv
    by_cases hq : q = p
    · simp [setFile, lookupFile, hq]
    · simp [setFile, lookupFile, hq, ih]

theorem lookupFile_setFile_ne (fs : FileSys) {p q : OsPath} (v : List String)
    (h : q ≠ p) : lookupFile (setFile fs q v) p = lookupFile fs p := by
  induction fs with
  | nil => simp [setFile, lookupFile, h]
  | cons kv rest ih =>
    obtain ⟨r, c⟩ := kv
    by_cases hr : r = q
    · subst hr
      simp [setFile, lookupFile, h]
    · by_cases hrp : r = p
      · simp [setFile, lookupFile, hr, hrp, Ne.symm h]
      · simp [setFile, lookupFile, hr, hrp, ih]

theorem processPlaylists_files_preserved {od : OsPath} {pls : List PlaylistFile}
    {fs0 fs : FileSys} {acc : Acc} (h : processPlaylists od pls fs0 = .ok (acc, fs))
    {p : OsPath}
    (hp : ∀ m plm, pls.get? m = some plm → ∀ nm, plm.path.getLast? = some nm →
      od ++ [nm] ≠ p) :
    lookupFile fs p = lookupFile fs0 p := by
  induction pls generalizing fs0 acc fs with
  | nil =>
    simp only [processPlaylists] at h
    injection h with h
    injection h with h1 h2
    subst h2
    rfl
  | cons pl rest ih =>
    cases hopen : pl.openOk with
    | false => simp [processPlaylists, hopen] at h
    | true =>
      cases hnm : fileName? pl.path with
      | none => simp [processPlaylists, hopen, hnm] at h
      | some nm =>
        cases hcreate : pl.createOk with
        | false => simp [processPlaylists, hopen, hnm, hcreate] at h
        | true =>
          cases hw : pl.writeOk with
          | false =>
            cases hpe : processEntries (playlistDir pl.path) od (od ++ [nm]) false pl.entries with
            | error f => simp [processPlaylists, hopen, hnm, hcreate, hw, hpe] at h
            | ok acc1 => simp [processPlaylists, hopen, hnm, hcreate, hw, hpe] at h
          | true =>
            cases hpe : processEntries (playlistDir pl.path) od (od ++ [nm]) true pl.entries with
            | error f => simp [processPlaylists, hopen, hnm, hcreate, hw, hpe] at h
            | ok acc1 =>
              cases hrest : processPlaylists od rest
                  (setFile (setFile fs0 (od ++ [nm]) []) (od ++ [nm]) acc1.lines) with
              | error f => simp [processPlaylists, hopen, hnm, hcreate, hw, hpe, hrest] at h
              | ok pr =>
                obtain ⟨accR, fsR⟩ := pr
                simp only [processPlaylists, hopen, hnm, hcreate, hw, hpe, hrest,
                  if_true] at h
                injection h with h
                injection h with hAcc hFs
                subst hFs
                have hne : od ++ [nm] ≠ p :=
                  hp 0 pl List.get?_cons_zero nm (getLast?_of_fileName? hnm)
                have hrestp : ∀ m plm, rest.get? m = some plm →
                    ∀ nm', plm.path.getLast? = some nm' → od ++ [nm'] ≠ p := by
                  intro m plm hm nm' hnm'
                  exact hp (m + 1) plm (by rw [List.get?_cons_succ]; exact hm) nm' hnm'
                rw [ih hrest hrestp, lookupFile_setFile_ne _ _ hne,
                  lookupFile_setFile_ne _ _ hne]

theorem processPlaylists_files_last {od : OsPath} {pls : List PlaylistFile}
    {fs0 fs : FileSys} {acc : Acc} (h : processPlaylists od pls fs0 = .ok (acc, fs)) :
    ∀ k pl, pls.get? k = some pl →
      (∀ m plm, k < m → pls.get? m = some plm →
        plm.path.getLast? ≠ pl.path.getLast?) →
      ∃ nm acc1, pl.path.getLast? = some nm
        ∧ processEntries (playlistDir pl.path) od (od ++ [nm]) pl.writeOk
            pl.entries = .ok acc1
        ∧ lookupFile fs (od ++ [nm]) = some acc1.lines := by
  induction pls generalizing fs0 acc fs with
  | nil => intro k pl hk; simp at hk
  | cons pl0 rest ih =>
    cases hopen : pl0.openOk with
    | false => simp [processPlaylists, hopen] at h
    | true =>
      cases hnm : fileName? pl0.path with
      | none => simp [processPlaylists, hopen, hnm] at h
      | some nm =>
        cases hcreate : pl0.createOk with
        | false => simp [processPlaylists, hopen, hnm, hcreate] at h
        | true =>
          cases hw : pl0.writeOk with
          | false =>
            cases hpe : processEntries (playlistDir pl0.path) od (od ++ [nm]) false pl0.entries with
            | error f => simp [processPlaylists, hopen, hnm, hcreate, hw, hpe] at h
            | ok acc1 => simp [processPlaylists, hopen, hnm, hcreate, hw, hpe] at h
          | true =>
            cases hpe : processEntries (playlistDir pl0.path) od (od ++ [nm]) true pl0.entries with
            | error f => simp [processPlaylists, hopen, hnm, hcreate, hw, hpe] at h
            | ok acc1 =>
              cases hrest : processPlaylists od rest
                  (setFile (setFile fs0 (od ++ [nm]) []) (od ++ [nm]) acc1.lines) with
              | error f => simp [processPlaylists, hopen, hnm, hcreate, hw, hpe, hrest] at h
              | ok pr =>
                obtain ⟨accR, fsR⟩ := pr
                simp only [processPlaylists, hopen, hnm, hcreate, hw, hpe, hrest,
                  if_true] at h
                injection h with h
                injection h with hAcc hFs
                subst hFs
                intro k pl hk hlast
                cases k with
                | zero =>
                  rw [List.get?_cons_zero] at hk
                  injection hk with hk
                  subst hk
                  refine ⟨nm, acc1, getLast?_of_fileName? hnm, by rw [hw]; exact hpe, ?_⟩
                  have hrestp : ∀ m plm, rest.get? m = some plm →
                      ∀ nm', plm.path.getLast? = some nm' → od ++ [nm'] ≠ od ++ [nm] := by
                    intro m plm hm nm' hnm' heq
                    have : nm' = nm := by
                      have := List.append_cancel_left heq
                      injection this
                    apply hlast (m + 1) plm (Nat.succ_pos m)
                      (by rw [List.get?_cons_succ]; exact hm)
                    rw [hnm', getLast?_of_fileName? hnm, this]
                  rw [processPlaylists_files_preserved hrest hrestp,
                    lookupFile_setFile_self]
                | succ k' =>
                  rw [List.get?_cons_succ] at hk
                  refine ih hrest k' pl hk ?_
                  intro m plm hm hmem
                  exact hlast (m + 1) plm (Nat.succ_lt_succ hm)
                    (by rw [List.get?_cons_succ]; exact hmem)

/-! Lemmas about the conversion and copy stages and the whole run. -/

theorem run_ok_elim {env : Env} {out : RunOut} (h : run env = .ok out) :
    env.rootCreateOk = true
    ∧ ∃ acc fs spawns copyEvents,
      processPlaylists env.outputDir env.playlists [] = .ok (acc, fs)
      ∧ submitConverts env.mkdirOk acc.filesToConvert 0 = .ok spawns
      ∧ copyPhase env.mkdirOk env.copyRes acc.filesToConvert.length
          (acc.filesToCopy.length + acc.filesToConvert.length) acc.filesToCopy 0
          = .ok copyEvents
      ∧ out = ⟨acc.events,
          collectConverts env.convRes acc.filesToConvert
            (acc.filesToCopy.length + acc.filesToConvert.length)
            (env.completion.take acc.filesToConvert.length) 0,
          copyEvents, fs, acc.filesToCopy, acc.filesToConvert, spawns, 0⟩ := by
  cases hroot : env.rootCreateOk with
  | false => simp [run, hroot] at h
  | true =>
    cases hpp : processPlaylists env.outputDir env.playlists [] with
    | error f => simp [run, hroot, hpp] at h
    | ok pr =>
      obtain ⟨acc, fs⟩ := pr
      cases hsub : submitConverts env.mkdirOk acc.filesToConvert 0 with
      | error f => simp [run, hroot, hpp, hsub] at h
      | ok spawns =>
        cases hcp : copyPhase env.mkdirOk env.copyRes acc.filesToConvert.length
            (acc.filesToCopy.length + acc.filesToConvert.length) acc.filesToCopy 0 with
        | error f => simp [run, hroot, hpp, hsub, hcp] at h
        | ok copyEvents =>
          simp only [run, hroot, hpp, hsub, hcp, if_true] at h
          injection h with h
          exact ⟨rfl, acc, fs, spawns, copyEvents, rfl, hsub, hcp, h.symm⟩

theorem submitConverts_ok {mk : OsPath → Bool} {ts : List (OsPath × OsPath)} {i : Nat}
    {sp : List Spawn} (h : submitConverts mk ts i = .ok sp) :
    sp.length = ts.length
    ∧ (∀ j s, sp.get? j = some s → ∃ t, ts.get? j = some t
        ∧ ∃ istr ostr, pathToString t.1 = some istr ∧ pathToString t.2 = some ostr
        ∧ s = ⟨i + j, ffmpegArgs istr ostr, t.2⟩)
    ∧ (∀ t ∈ ts, mk t.2.dropLast = true) := by
  induction ts generalizing i sp with
  | nil =>
    simp only [submitConverts] at h
    injection h with h
    subst h
    simp
  | cons t rest ih =>
    obtain ⟨inp, outp⟩ := t
    cases his : pathToString inp with
    | none => simp [submitConverts, his] at h
    | some istr =>
      cases hos : pathToString outp with
      | none => simp [submitConverts, his, hos] at h
      | some ostr =>
        cases hmk : mk outp.dropLast with
        | false => simp [submitConverts, his, hos, hmk] at h
        | true =>
          cases hrest : submitConverts mk rest (i + 1) with
          | error f => simp [submitConverts, his, hos, hmk, hrest] at h
          | ok rs =>
            simp only [submitConverts, his, hos, hmk, hrest, if_true] at h
            injection h with h
            subst h
            obtain ⟨l1, l2, l3⟩ := ih hrest
            refine ⟨by simp [l1], ?_, ?_⟩
            · intro j s hj
              cases j with
              | zero =>
                rw [List.get?_cons_zero] at hj
                injection hj with hj
                subst hj
                exact ⟨(inp, outp), List.get?_cons_zero, istr, ostr, his, hos, by simp⟩
              | succ j' =>
                rw [List.get?_cons_succ] at hj
                obtain ⟨t, ht, istr', ostr', hi', ho', hs⟩ := l2 j' s hj
                refine ⟨t, by rw [List.get?_cons_succ]; exact ht,
                  istr', ostr', hi', ho', ?_⟩
                rw [hs]
                have harith : i + 1 + j' = i + (j' + 1) := by omega
                rw [harith]
            · intro t ht
              rcases List.mem_cons.mp ht with rfl | ht
              · exact hmk
              · exact l3 t ht

theorem copyPhase_ok {mk : OsPath → Bool} {cr : OsPath → OsPath → Bool}
    {n tot : Nat} {ts : List (OsPath × OsPath)} {j : Nat} {evs : List Event}
    (h : copyPhase mk cr n tot ts j = .ok evs) :
    evs.length = ts.length
    ∧ (∀ i e, evs.get? i = some e → ∃ t, ts.get? i = some t
        ∧ e = .copyDone (j + i + n + 1) tot t.2 (cr t.1 t.2))
    ∧ (∀ t ∈ ts, mk t.2.dropLast = true)
    ∧ (∀ e ∈ evs, e.isCopyDone = true) := by
  induction ts generalizing j evs with
  | nil =>
    simp only [copyPhase] at h
    injection h with h
    subst h
    simp
  | cons t rest ih =>
    obtain ⟨inp, outp⟩ := t
    cases hmk : mk outp.dropLast with
    | false => simp [copyPhase, hmk] at h
    | true =>
      cases hrest : copyPhase mk cr n tot rest (j + 1) with
      | error f => simp [copyPhase, hmk, hrest] at h
      | ok evs' =>
        simp only [copyPhase, hmk, hrest, if_true] at h
        injection h with h
        subst h
        obtain ⟨l1, l2, l3, l4⟩ := ih hrest
        refine ⟨by simp [l1], ?_, ?_, ?_⟩
        · intro i e hi
          cases i with
          | zero =>
            rw [List.get?_cons_zero] at hi
            injection hi with hi
            subst hi
            refine ⟨(inp, outp), List.get?_cons_zero, ?_⟩
            have harith : j + n + 1 = j + 0 + n + 1 := by omega
            rw [harith]
          | succ i' =>
            rw [List.get?_cons_succ] at hi
            obtain ⟨t, ht, he⟩ := l2 i' e hi
            refine ⟨t, by rw [List.get?_cons_succ]; exact ht, ?_⟩
            rw [he]
            have harith : j + 1 + i' + n + 1 = j + (i' + 1) + n + 1 := by omega
            rw [harith]
        · intro t ht
          rcases List.mem_cons.mp ht with rfl | ht
          · exact hmk
          · exact l3 t ht
        · intro e he
          rcases List.mem_cons.mp he with rfl | he
          · rfl
          · exact l4 e he

theorem collectConverts_length (cr : Nat → ConvOutcome) (ts : List (OsPath × OsPath))
    (tot : Nat) (arr : List Nat) (i : Nat) :
    (collectConverts cr ts tot arr i).length = arr.length := by
  induction arr generalizing i with
  | nil => rfl
  | cons t rest ih => simp [collectConverts, ih]

theorem collectConverts_get? (cr : Nat → ConvOutcome) (ts : List (OsPath × OsPath))
    (tot : Nat) (arr : List Nat) (i : Nat) :
    ∀ k e, (collectConverts cr ts tot arr i).get? k = some e →
      ∃ t, arr.get? k = some t
        ∧ e = .convertDone (i + k + 1) tot (ts.getD t ([], [])).2
            (isSuccess (cr t)) := by
  induction arr generalizing i with
  | nil => intro k e hk; simp [collectConverts] at hk
  | cons t rest ih =>
    intro k e hk
    cases k with
    | zero =>
      rw [collectConverts, List.get?_cons_zero] at hk
      injection hk with hk
      subst hk
      refine ⟨t, List.get?_cons_zero, ?_⟩
      have harith : i + 1 = i + 0 + 1 := by omega
      rw [harith]
    | succ k' =>
      rw [collectConverts, List.get?_cons_succ] at hk
      obtain ⟨t', ht', he⟩ := ih (i + 1) k' e hk
      refine ⟨t', by rw [List.get?_cons_succ]; exact ht', ?_⟩
      rw [he]
      have harith : i + 1 + k' + 1 = i + (k' + 1) + 1 := by omega
      rw [harith]

theorem collectConverts_all (cr : Nat → ConvOutcome) (ts : List (OsPath × OsPath))
    (tot : Nat) (arr : List Nat) (i : Nat) :
    ∀ e ∈ collectConverts cr ts tot arr i, e.isConvertDone = true := by
  induction arr generalizing i with
  | nil => intro e he; simp [collectConverts] at he
  | cons t rest ih =>
    intro e he
    rw [collectConverts] at he
    rcases List.mem_cons.mp he with rfl | he
    · rfl
    · exact ih (i + 1) e he

theorem windowsLine_eq_none {p : OsPath} (hbad : ¬ ∀ x ∈ p, x.utf8 = true) :
    windowsLine p = none := by
  cases hwf : windowsFold p with
  | none => rw [windowsLine, hwf]; rfl
  | some l => exact absurd (utf8_of_windowsFold hwf) hbad

/-- C2: in a successful run the stages are strictly ordered: the event trace
is the parse-stage events (playlist lines, flushes and skip warnings, with
every playlist flushed), followed by the conversion results — exactly
`files_to_convert.length` of them when the completion order is a permutation
of the convert tasks — followed by the copy events, one per copy task. -/
theorem claim2_stage_order {env : Env} {out : RunOut} (h : run env = .ok out)
    (hperm : env.completion.Perm (List.range out.filesToConvert.length)) :
    out.events = out.parseEvents ++ out.convertEvents ++ out.copyEvents
    ∧ (∀ e ∈ out.parseEvents, e.isParsePhase = true)
    ∧ (∀ e ∈ out.convertEvents, e.isConvertDone = true)
    ∧ (∀ e ∈ out.copyEvents, e.isCopyDone = true)
    ∧ out.convertEvents.length = out.filesToConvert.length
    ∧ out.copyEvents.length = out.filesToCopy.length
    ∧ (∀ pl ∈ env.playlists, ∃ nm, pl.path.getLast? = some nm
        ∧ Event.flushed (env.outputDir ++ [nm]) ∈ out.parseEvents) := by
  obtain ⟨hroot, acc, fs, spawns, copyEvents, hpp, hsub, hcp, hout⟩ := run_ok_elim h
  subst hout
  obtain ⟨g1, g2, g3, g4, g5, g6⟩ := processPlaylists_ok hpp
  obtain ⟨c1, c2, c3, c4⟩ := copyPhase_ok hcp
  have hlen : env.completion.length = acc.filesToConvert.length := by
    have := hperm.length_eq
    simpa using this
  refine ⟨rfl, g4, fun e he => collectConverts_all _ _ _ _ _ e he, c4, ?_, c1, g5⟩
  show (collectConverts env.convRes acc.filesToConvert _
    (env.completion.take acc.filesToConvert.length) 0).length = _
  rw [collectConverts_length, List.length_take, hlen, Nat.min_self]

/-- C3: the `k`-th received conversion result (0-based) is logged with display
index `k + 1`; the `j`-th copy task in submission order is logged with display
index `num_convert_tasks + j + 1`, independently of the conversion completion
order; and every progress line reports the total `num_convert + num_copy`. -/
theorem claim3_progress_indices {env : Env} {out : RunOut} (h : run env = .ok out) :
    (∀ k e, out.convertEvents.get? k = some e →
      ∃ t, (env.completion.take out.filesToConvert.length).get? k = some t
        ∧ e = .convertDone (k + 1)
            (out.filesToCopy.length + out.filesToConvert.length)
            (out.filesToConvert.getD t ([], [])).2 (isSuccess (env.convRes t)))
    ∧ (∀ j e, out.copyEvents.get? j = some e →
      ∃ t, out.filesToCopy.get? j = some t
        ∧ e = .copyDone (out.filesToConvert.length + j + 1)
            (out.filesToCopy.length + out.filesToConvert.length)
            t.2 (env.copyRes t.1 t.2))
    ∧ (∀ c', ∃ out', run { env with completion := c' } = .ok out'
        ∧ out'.copyEvents = out.copyEvents
        ∧ out'.parseEvents = out.parseEvents
        ∧ out'.filesToCopy = out.filesToCopy
        ∧ out'.filesToConvert = out.filesToConvert) := by
  obtain ⟨hroot, acc, fs, spawns, copyEvents, hpp, hsub, hcp, hout⟩ := run_ok_elim h
  subst hout
  obtain ⟨c1, c2, c3, c4⟩ := copyPhase_ok hcp
  refine ⟨?_, ?_, ?_⟩
  · intro k e hk
    obtain ⟨t, ht, he⟩ := collectConverts_get? env.convRes acc.filesToConvert _ _ 0 k e hk
    refine ⟨t, ht, ?_⟩
    rw [he]
    have harith : 0 + k + 1 = k + 1 := by omega
    rw [harith]
  · intro j e hj
    obtain ⟨t, ht, he⟩ := c2 j e hj
    refine ⟨t, ht, ?_⟩
    rw [he]
    have harith : 0 + j + acc.filesToConvert.length + 1
        = acc.filesToConvert.length + j + 1 := by omega
    rw [harith]
  · intro c'
    refine ⟨⟨acc.events,
      collectConverts env.convRes acc.filesToConvert
        (acc.filesToCopy.length + acc.filesToConvert.length)
        (c'.take acc.filesToConvert.length) 0,
      copyEvents, fs, acc.filesToCopy, acc.filesToConvert, spawns, 0⟩,
      ?_, rfl, rfl, rfl, rfl⟩
    simp only [run, hroot, hpp, hsub, hcp, if_true]

/-- C6: if the run reaches the end then none of the fatal conditions occurred:
the output root was created, every input playlist opened, every output
playlist was created and written/flushed, and every convert and copy task's
destination parent directory was created. Contrapositively, each of these
failures aborts the whole run. -/
theorem claim6_fatal_errors {env : Env} {out : RunOut} (h : run env = .ok out) :
    env.rootCreateOk = true
    ∧ (∀ pl ∈ env.playlists,
        pl.openOk = true ∧ pl.createOk = true ∧ pl.writeOk = true)
    ∧ (∀ t ∈ out.filesToConvert, env.mkdirOk t.2.dropLast = true)
    ∧ (∀ t ∈ out.filesToCopy, env.mkdirOk t.2.dropLast = true) := by
  obtain ⟨hroot, acc, fs, spawns, copyEvents, hpp, hsub, hcp, hout⟩ := run_ok_elim h
  subst hout
  exact ⟨hroot, (processPlaylists_ok hpp).1, (submitConverts_ok hsub).2.2,
    (copyPhase_ok hcp).2.2.1⟩

/-- C8: the conversion worker pool has exactly 4 workers, and the `j`-th
submitted job invokes the transcoder on exactly the argument list
input path, `-y` (overwrite), `-vn` (strip video), `-aq 2` (audio quality 2),
output path, for the `j`-th convert task; success of a conversion is exit
status zero (a launch error is never a success). -/
theorem claim8_transcoder_invocation {env : Env} {out : RunOut}
    (h : run env = .ok out) :
    nWorkers = 4
    ∧ out.spawns.length = out.filesToConvert.length
    ∧ (∀ j s, out.spawns.get? j = some s → ∃ t, out.filesToConvert.get? j = some t
        ∧ ∃ istr ostr, pathToString t.1 = some istr ∧ pathToString t.2 = some ostr
        ∧ s.args = ["-i", istr, "-y", "-vn", "-aq", "2", ostr] ∧ s.output = t.2)
    ∧ (∀ z, isSuccess (.finished z) = z)
    ∧ (∀ m, isSuccess (.launchError m) = false) := by
  obtain ⟨hroot, acc, fs, spawns, copyEvents, hpp, hsub, hcp, hout⟩ := run_ok_elim h
  subst hout
  dsimp only
  obtain ⟨l1, l2, l3⟩ := submitConverts_ok hsub
  refine ⟨rfl, l1, ?_, fun z => rfl, fun m => rfl⟩
  intro j s hj
  obtain ⟨t, ht, istr, ostr, hi, ho, hs⟩ := l2 j s hj
  refine ⟨t, ht, istr, ostr, hi, ho, ?_, ?_⟩
  · rw [hs]
    rfl
  · rw [hs]

/-- C9: a surviving entry (one with an extension) containing a non-UTF-8
component makes the entry loop abort with a panic instead of skipping the
entry; consequently in any successful run every component of every surviving
entry is valid UTF-8. -/
theorem claim9_non_utf8_aborts :
    (∀ (pd od opp : OsPath) (wOk : Bool) (p : OsPath) (rest : List EntryRes)
      (e : List Char), pathExtension p = some e →
      ∀ x0 ∈ p, x0.utf8 = false →
        processEntries pd od opp wOk (.path p :: rest) = .error Fatal.panicNonUtf8)
    ∧ (∀ (env : Env) (out : RunOut), run env = .ok out →
        ∀ pl ∈ env.playlists, ∀ p, .path p ∈ pl.entries → pathExtension p ≠ none →
          ∀ x ∈ p, x.utf8 = true) := by
  constructor
  · intro pd od opp wOk p rest e he x0 hx0 hbad
    have hnall : ¬ ∀ x ∈ p, x.utf8 = true := by
      intro hall
      rw [hall x0 hx0] at hbad
      exact Bool.noConfusion hbad
    cases hcl : classifyEntry pd od p with
    | none =>
      simp only [classifyEntry, he] at hcl
      split at hcl <;> simp at hcl
    | some c =>
      have hwl : windowsLine c.relOut = none := by
        obtain ⟨e', he', hcase⟩ := classifyEntry_spec hcl
        rcases hcase with ⟨-, hcc⟩ | ⟨-, hcc⟩
        · rw [hcc]
          exact windowsLine_eq_none hnall
        · rw [hcc]
          refine windowsLine_eq_none ?_
          intro hall
          exact hnall (utf8_of_withExtensionMp3 hall)
      simp [processEntries, hcl, hwl]
  · intro env out h pl hpl p hp hpe
    obtain ⟨hroot, acc, fs, spawns, copyEvents, hpp, hsub, hcp, hout⟩ := run_ok_elim h
    exact (processPlaylists_ok hpp).2.2.2.2.2 pl hpl p hp hpe

/-- C10: each output playlist is created at `output_dir` joined with the input
playlist's file name only, so input playlists sharing a file name share one
output file, and after a successful run that file holds exactly the lines of
the last such playlist (earlier ones were truncated away). -/
theorem claim10_duplicate_names {env : Env} {out : RunOut}
    (h : run env = .ok out) :
    (∀ pl ∈ env.playlists, ∃ nm, pl.path.getLast? = some nm
      ∧ Event.flushed (env.outputDir ++ [nm]) ∈ out.parseEvents)
    ∧ (∀ k pl, env.playlists.get? k = some pl →
        (∀ m plm, k < m → env.playlists.get? m = some plm →
          plm.path.getLast? ≠ pl.path.getLast?) →
        ∃ nm acc1, pl.path.getLast? = some nm
          ∧ processEntries (playlistDir pl.path) env.outputDir
              (env.outputDir ++ [nm]) pl.writeOk pl.entries = .ok acc1
          ∧ acc1.lines = pl.entries.filterMap
              (entryLine (playlistDir pl.path) env.outputDir)
          ∧ lookupFile out.files (env.outputDir ++ [nm]) = some acc1.lines) := by
  obtain ⟨hroot, acc, fs, spawns, copyEvents, hpp, hsub, hcp, hout⟩ := run_ok_elim h
  subst hout
  refine ⟨(processPlaylists_ok hpp).2.2.2.2.1, ?_⟩
  intro k pl hk hlast
  obtain ⟨nm, acc1, hnm, hpe, hlook⟩ := processPlaylists_files_last hpp k pl hk hlast
  exact ⟨nm, acc1, hnm, hpe, (processEntries_ok hpe).2.2.1, hlook⟩

/-! Success of the run when only per-task failures occur. -/

theorem exists_ok_of_isOk {ε α : Type} {e : Except ε α} (h : e.isOk = true) :
    ∃ a, e = .ok a := by
  cases e with
  | error f => exact absurd h (by simp [Except.isOk, Except.toBool])
  | ok a => exact ⟨a, rfl⟩

theorem processEntries_isOk (pd od opp : OsPath) :
    ∀ entries : List EntryRes,
      (∀ q, .path q ∈ entries → ∀ x ∈ q, x.utf8 = true) →
      (processEntries pd od opp true entries).isOk = true := by
  intro entries
  induction entries with
  | nil => intro _; rfl
  | cons e rest ih =>
    intro hutf
    have ihr := ih fun q hq => hutf q (List.mem_cons_of_mem _ hq)
    obtain ⟨acc, hacc⟩ := exists_ok_of_isOk ihr
    cases e with
    | readErr m => simp [processEntries, hacc, Except.isOk, Except.toBool]
    | url u => simp [processEntries, hacc, Except.isOk, Except.toBool]
    | path p =>
      cases hcl : classifyEntry pd od p with
      | none => simp [processEntries, hcl, hacc, Except.isOk, Except.toBool]
      | some c =>
        have hrel : ∀ x ∈ c.relOut, x.utf8 = true := by
          obtain ⟨e', he', hcase⟩ := classifyEntry_spec hcl
          have hp := hutf p (List.mem_cons_self ..)
          rcases hcase with ⟨-, hcc⟩ | ⟨-, hcc⟩ <;> rw [hcc]
          · exact hp
          · exact utf8_withExtensionMp3 hp
        have hwl : windowsLine c.relOut = some
            (String.mk ((c.relOut.map fun x => x.chars ++ ['\\']).flatten).dropLast) := by
          rw [windowsLine, windowsFold_of_utf8 hrel]
          rfl
        cases hk : c.kind with
        | copy => simp [processEntries, hcl, hwl, hacc, hk, Except.isOk, Except.toBool]
        | convert => simp [processEntries, hcl, hwl, hacc, hk, Except.isOk, Except.toBool]

theorem processPlaylists_isOk (od : OsPath) :
    ∀ (pls : List PlaylistFile) (fs0 : FileSys),
      (∀ pl ∈ pls, pl.openOk = true ∧ pl.createOk = true ∧ pl.writeOk = true
        ∧ (fileName? pl.path).isSome = true) →
      (∀ pl ∈ pls, ∀ q, .path q ∈ pl.entries → ∀ x ∈ q, x.utf8 = true) →
      (processPlaylists od pls fs0).isOk = true := by
  intro pls
  induction pls with
  | nil => intro fs0 _ _; rfl
  | cons pl rest ih =>
    intro fs0 hfl hutf
    obtain ⟨ho, hc, hw, hfn⟩ := hfl pl (List.mem_cons_self ..)
    cases hnm : fileName? pl.path with
    | none =>
      rw [hnm] at hfn
      exact absurd hfn (by simp)
    | some nm =>
      have hpeOk := processEntries_isOk (playlistDir pl.path) od (od ++ [nm])
        pl.entries (hutf pl (List.mem_cons_self ..))
      obtain ⟨acc1, hacc1⟩ := exists_ok_of_isOk hpeOk
      have hrestOk := ih (setFile (setFile fs0 (od ++ [nm]) []) (od ++ [nm]) acc1.lines)
        (fun q hq => hfl q (List.mem_cons_of_mem _ hq))
        (fun q hq => hutf q (List.mem_cons_of_mem _ hq))
      obtain ⟨pr, hpr⟩ := exists_ok_of_isOk hrestOk
      obtain ⟨accR, fsR⟩ := pr
      simp [processPlaylists, ho, hnm, hc, hw, hacc1, hpr, Except.isOk, Except.toBool]

theorem submitConverts_isOk (mk : OsPath → Bool) (hmk : ∀ d, mk d = true) :
    ∀ (ts : List (OsPath × OsPath)) (i : Nat),
      (∀ t ∈ ts, (∀ x ∈ t.1, x.utf8 = true) ∧ (∀ x ∈ t.2, x.utf8 = true)) →
      (submitConverts mk ts i).isOk = true := by
  intro ts
  induction ts with
  | nil => intro i _; rfl
  | cons t rest ih =>
    intro i hutf
    obtain ⟨inp, outp⟩ := t
    have his : (inp.all fun x => x.utf8) = true := by
      rw [List.all_eq_true]
      exact (hutf (inp, outp) (List.mem_cons_self ..)).1
    have hos : (outp.all fun x => x.utf8) = true := by
      rw [List.all_eq_true]
      exact (hutf (inp, outp) (List.mem_cons_self ..)).2
    have ihr := ih (i + 1) fun q hq => hutf q (List.mem_cons_of_mem _ hq)
    obtain ⟨rs, hrs⟩ := exists_ok_of_isOk ihr
    simp [submitConverts, pathToString, his, hos, hmk _, hrs,
      Except.isOk, Except.toBool]

theorem copyPhase_isOk (mk : OsPath → Bool) (cr : OsPath → OsPath → Bool)
    (n tot : Nat) (hmk : ∀ d, mk d = true) :
    ∀ (ts : List (OsPath × OsPath)) (j : Nat),
      (copyPhase mk cr n tot ts j).isOk = true := by
  intro ts
  induction ts with
  | nil => intro j; rfl
  | cons t rest ih =>
    intro j
    obtain ⟨inp, outp⟩ := t
    obtain ⟨evs, hevs⟩ := exists_ok_of_isOk (ih (j + 1))
    simp [copyPhase, hmk _, hevs, Except.isOk, Except.toBool]

theorem mem_playlistConvertTasks {od : OsPath} {pl : PlaylistFile}
    {t : OsPath × OsPath} (h : t ∈ playlistConvertTasks od pl) :
    ∃ q c, .path q ∈ pl.entries
      ∧ classifyEntry (playlistDir pl.path) od q = some c
      ∧ c.kind = .convert ∧ t = (c.input, c.output) := by
  rw [playlistConvertTasks] at h
  rcases List.mem_filterMap.mp h with ⟨e, he, hte⟩
  cases e with
  | readErr m => simp [entryConvertTask] at hte
  | url u => simp [entryConvertTask] at hte
  | path q =>
    cases hcl : classifyEntry (playlistDir pl.path) od q with
    | none => simp [entryConvertTask, hcl] at hte
    | some c =>
      cases hk : c.kind with
      | copy => simp [entryConvertTask, hcl, hk] at hte
      | convert =>
        simp only [entryConvertTask, hcl, hk] at hte
        exact ⟨q, c, he, hcl, hk, (Option.some_inj.mp hte).symm⟩

theorem utf8_playlistDir {pl : OsPath} (h : ∀ x ∈ pl, x.utf8 = true) :
    ∀ x ∈ playlistDir pl, x.utf8 = true := by
  intro x hx
  rw [playlistDir] at hx
  by_cases hd : pl.dropLast = []
  · rw [if_pos hd] at hx
    rcases List.mem_singleton.mp hx with rfl
    rfl
  · rw [if_neg hd] at hx
    exact h x (List.dropLast_subset pl hx)

/-- C5: when the environment's only failures are per-task ones (transcoder
exit status, transcoder launch, file copy — `convRes` and `copyRes` are
unconstrained), the run reaches the end with exit status 0, processes one
conversion result per convert task and one copy per copy task, and logs each
failed task as a warning. -/
theorem claim5_no_task_failure_aborts {env : Env}
    (h1 : env.rootCreateOk = true)
    (h2 : ∀ pl ∈ env.playlists, pl.openOk = true ∧ pl.createOk = true
      ∧ pl.writeOk = true ∧ (fileName? pl.path).isSome = true)
    (h3 : ∀ pl ∈ env.playlists, (∀ x ∈ pl.path, x.utf8 = true)
      ∧ ∀ e ∈ pl.entries, e.allUtf8 = true)
    (h4 : ∀ x ∈ env.outputDir, x.utf8 = true)
    (h5 : ∀ d, env.mkdirOk d = true)
    (h6 : env.completion.Perm (List.range
      ((env.playlists.map (playlistConvertTasks env.outputDir)).flatten.length))) :
    ∃ out, run env = .ok out
      ∧ out.exit = 0
      ∧ out.convertEvents.length = out.filesToConvert.length
      ∧ out.copyEvents.length = out.filesToCopy.length
      ∧ (∀ k e, out.convertEvents.get? k = some e →
          ∀ t, (env.completion.take out.filesToConvert.length).get? k = some t →
            isSuccess (env.convRes t) = false → e.level = .warn)
      ∧ (∀ j e, out.copyEvents.get? j = some e →
          ∀ t, out.filesToCopy.get? j = some t →
            env.copyRes t.1 t.2 = false → e.level = .warn) := by
  have h3' : ∀ pl ∈ env.playlists, ∀ q, .path q ∈ pl.entries →
      ∀ x ∈ q, x.utf8 = true := by
    intro pl hpl q hq x hx
    have hall := (h3 pl hpl).2 (.path q) hq
    rw [EntryRes.allUtf8] at hall
    exact List.all_eq_true.mp hall x hx
  have hplOk := processPlaylists_isOk env.outputDir env.playlists [] h2 h3'
  obtain ⟨pr, hpp⟩ := exists_ok_of_isOk hplOk
  obtain ⟨acc, fs⟩ := pr
  obtain ⟨g1, g2, g3, g4, g5, g6⟩ := processPlaylists_ok hpp
  have htasks : ∀ t ∈ acc.filesToConvert,
      (∀ x ∈ t.1, x.utf8 = true) ∧ (∀ x ∈ t.2, x.utf8 = true) := by
    intro t ht
    rw [g3] at ht
    rcases List.mem_flatten.mp ht with ⟨l, hl, htl⟩
    rcases List.mem_map.mp hl with ⟨pl, hpl, rfl⟩
    obtain ⟨q, c, hq, hcl, hk, rfl⟩ := mem_playlistConvertTasks htl
    obtain ⟨e', he', hcase⟩ := classifyEntry_spec hcl
    have hql : ∀ x ∈ q, x.utf8 = true := h3' pl hpl q hq
    have hpd : ∀ x ∈ playlistDir pl.path, x.utf8 = true :=
      utf8_playlistDir (h3 pl hpl).1
    rcases hcase with ⟨-, hcc⟩ | ⟨-, hcc⟩ <;> rw [hcc]
    · refine ⟨?_, ?_⟩ <;> intro x hx <;> rcases List.mem_append.mp hx with hx | hx
      · exact hpd x hx
      · exact hql x hx
      · exact h4 x hx
      · exact hql x hx
    · refine ⟨?_, ?_⟩ <;> intro x hx <;> rcases List.mem_append.mp hx with hx | hx
      · exact hpd x hx
      · exact hql x hx
      · exact h4 x hx
      · exact utf8_withExtensionMp3 hql x hx
  have hsubOk := submitConverts_isOk env.mkdirOk h5 acc.filesToConvert 0 htasks
  obtain ⟨spawns, hsub⟩ := exists_ok_of_isOk hsubOk
  have hcpOk := copyPhase_isOk env.mkdirOk env.copyRes acc.filesToConvert.length
    (acc.filesToCopy.length + acc.filesToConvert.length) h5 acc.filesToCopy 0
  obtain ⟨copyEvents, hcp⟩ := exists_ok_of_isOk hcpOk
  have hlen : env.completion.length = acc.filesToConvert.length := by
    have := h6.length_eq
    rw [List.length_range] at this
    rw [this, g3]
  refine ⟨⟨acc.events,
      collectConverts env.convRes acc.filesToConvert
        (acc.filesToCopy.length + acc.filesToConvert.length)
        (env.completion.take acc.filesToConvert.length) 0,
      copyEvents, fs, acc.filesToCopy, acc.filesToConvert, spawns, 0⟩,
    ?_, rfl, ?_, ?_, ?_, ?_⟩
  · simp only [run, h1, hpp, hsub, hcp, if_true]
  · show (collectConverts _ _ _ _ 0).length = _
    rw [collectConverts_length, List.length_take, hlen, Nat.min_self]
  · exact (copyPhase_ok hcp).1
  · intro k e hk t ht hfail
    obtain ⟨t', ht', he⟩ := collectConverts_get? env.convRes acc.filesToConvert _ _ 0 k e hk
    rw [ht] at ht'
    injection ht' with ht'
    subst ht'
    rw [he, Event.level, hfail]
    rfl
  · intro j e hj t ht hfail
    obtain ⟨t', ht', he⟩ := (copyPhase_ok hcp).2.1 j e hj
    rw [ht] at ht'
    injection ht' with ht'
    subst ht'
    rw [he, Event.level, hfail]
    rfl

/-! Witnesses applying the run-level claims at the sample environments. -/

/-- Witness for C2 at `envA`. -/
theorem claim2_witness :
    run envA = .ok outA
    ∧ outA.events = outA.parseEvents ++ outA.convertEvents ++ outA.copyEvents
    ∧ outA.convertEvents.length = outA.filesToConvert.length
    ∧ outA.copyEvents.length = outA.filesToCopy.length := by
  have hrun : run envA = .ok outA := rfl
  have h := claim2_stage_order hrun (List.Perm.swap 0 1 [])
  exact ⟨hrun, h.1, h.2.2.2.2.1, h.2.2.2.2.2.1⟩

/-- Witness for C3 at `envA`: the only copy task is displayed with index
`num_convert_tasks + 1 = 3` of 3 although the conversions completed out of
submission order. -/
theorem claim3_witness :
    run envA = .ok outA
    ∧ ∃ t, outA.filesToCopy.get? 0 = some t
        ∧ Event.copyDone 3 3 [vc "output", vc "a.mp3"] true =
          .copyDone (outA.filesToConvert.length + 0 + 1)
            (outA.filesToCopy.length + outA.filesToConvert.length)
            t.2 (envA.copyRes t.1 t.2) := by
  have hrun : run envA = .ok outA := rfl
  exact ⟨hrun, (claim3_progress_indices hrun).2.1 0
    (.copyDone 3 3 [vc "output", vc "a.mp3"] true) (by decide)⟩

/-- Witness for C5 at `envFail`, where every task fails. -/
theorem claim5_witness :
    ∃ out, run envFail = .ok out
      ∧ out.exit = 0
      ∧ out.convertEvents.length = out.filesToConvert.length
      ∧ out.copyEvents.length = out.filesToCopy.length
      ∧ (∀ k e, out.convertEvents.get? k = some e →
          ∀ t, (envFail.completion.take out.filesToConvert.length).get? k = some t →
            isSuccess (envFail.convRes t) = false → e.level = .warn)
      ∧ (∀ j e, out.copyEvents.get? j = some e →
          ∀ t, out.filesToCopy.get? j = some t →
            envFail.copyRes t.1 t.2 = false → e.level = .warn) :=
  claim5_no_task_failure_aborts rfl (by decide) (by decide) (by decide)
    (fun _ => rfl) (List.Perm.refl _)

/-- Witness for C6 at `envA`. -/
theorem claim6_witness :
    run envA = .ok outA
    ∧ envA.rootCreateOk = true
    ∧ (∀ pl ∈ envA.playlists,
        pl.openOk = true ∧ pl.createOk = true ∧ pl.writeOk = true)
    ∧ (∀ t ∈ outA.filesToConvert, envA.mkdirOk t.2.dropLast = true)
    ∧ (∀ t ∈ outA.filesToCopy, envA.mkdirOk t.2.dropLast = true) := by
  have hrun : run envA = .ok outA := rfl
  exact ⟨hrun, claim6_fatal_errors hrun⟩

/-- Witness for C8 at `envA`: the first spawned job's argument list. -/
theorem claim8_witness :
    run envA = .ok outA
    ∧ nWorkers = 4
    ∧ ∃ t, outA.filesToConvert.get? 0 = some t
        ∧ ∃ istr ostr, pathToString t.1 = some istr ∧ pathToString t.2 = some ostr
        ∧ (⟨0, ["-i", "./sub/b.wav", "-y", "-vn", "-aq", "2", "output/sub/b.mp3"],
            [vc "output", vc "sub", vc "b.mp3"]⟩ : Spawn).args
          = ["-i", istr, "-y", "-vn", "-aq", "2", ostr]
        ∧ (⟨0, ["-i", "./sub/b.wav", "-y", "-vn", "-aq", "2", "output/sub/b.mp3"],
            [vc "output", vc "sub", vc "b.mp3"]⟩ : Spawn).output = t.2 := by
  have hrun : run envA = .ok outA := rfl
  have h := claim8_transcoder_invocation hrun
  exact ⟨hrun, h.1, h.2.2.1 0
    ⟨0, ["-i", "./sub/b.wav", "-y", "-vn", "-aq", "2", "output/sub/b.mp3"],
      [vc "output", vc "sub", vc "b.mp3"]⟩ (by decide)⟩

/-- Witness for C9: an entry with extension `mp3` whose directory component is
not valid UTF-8 panics the entry loop instead of being skipped. -/
theorem claim9_witness :
    processEntries [vc "."] [vc "output"] [vc "output", vc "pl.m3u"] true
      [.path [⟨['b', 'a', 'd'], false⟩, vc "a.mp3"]] = .error Fatal.panicNonUtf8 :=
  claim9_non_utf8_aborts.1 [vc "."] [vc "output"] [vc "output", vc "pl.m3u"] true
    [⟨['b', 'a', 'd'], false⟩, vc "a.mp3"] [] ['m', 'p', '3'] (by decide)
    ⟨['b', 'a', 'd'], false⟩ (by decide) rfl

/-- Witness for C10 at `envDup`: the two playlists share the name `pl.m3u`
and the shared output file holds only the second playlist's lines. -/
theorem claim10_witness :
    run envDup = .ok outDup
    ∧ lookupFile outDup.files [vc "output", vc "pl.m3u"] = some ["b.mp3", "c.mp3"] := by
  have hrun : run envDup = .ok outDup := rfl
  refine ⟨hrun, ?_⟩
  have hlen : envDup.playlists.length = 2 := rfl
  have hnolater : ∀ m plm, 1 < m → envDup.playlists.get? m = some plm →
      plm.path.getLast? ≠ (⟨[vc "two", vc "pl.m3u"], true, true, true,
        [.path [vc "b.mp3"], .path [vc "c.mp3"]]⟩ : PlaylistFile).path.getLast? := by
    intro m plm hm hget
    rw [List.get?_eq_none.mpr (by rw [hlen]; omega)] at hget
    exact absurd hget (by simp)
  have h := (claim10_duplicate_names hrun).2 1
    ⟨[vc "two", vc "pl.m3u"], true, true, true,
      [.path [vc "b.mp3"], .path [vc "c.mp3"]]⟩ (by decide) hnolater
  obtain ⟨nm, acc1, hnm, hpe, hlines, hlook⟩ := h
  have hnm2 : nm = vc "pl.m3u" := by
    have h2 : ([vc "two", vc "pl.m3u"] : OsPath).getLast? = some (vc "pl.m3u") := by decide
    rw [h2] at hnm
    exact (Option.some_inj.mp hnm).symm
  subst hnm2
  have heval : processEntries (playlistDir [vc "two", vc "pl.m3u"]) envDup.outputDir
      (envDup.outputDir ++ [vc "pl.m3u"]) true [.path [vc "b.mp3"], .path [vc "c.mp3"]]
      = .ok ⟨[([vc "two", vc "b.mp3"], [vc "output", vc "b.mp3"]),
          ([vc "two", vc "c.mp3"], [vc "output", vc "c.mp3"])], [],
        ["b.mp3", "c.mp3"],
        [.line [vc "output", vc "pl.m3u"] "b.mp3",
          .line [vc "output", vc "pl.m3u"] "c.mp3"]⟩ := rfl
  have hacc : Except.ok (ε := Fatal)
      (⟨[([vc "two", vc "b.mp3"], [vc "output", vc "b.mp3"]),
          ([vc "two", vc "c.mp3"], [vc "output", vc "c.mp3"])], [],
        ["b.mp3", "c.mp3"],
        [.line [vc "output", vc "pl.m3u"] "b.mp3",
          .line [vc "output", vc "pl.m3u"] "c.mp3"]⟩ : Acc) = .ok acc1 :=
    heval.symm.trans hpe
  injection hacc with hacc
  rw [← hacc] at hlook
  exact hlook

end FordSync
